import Mathlib

/-!
Verification of the ddterm split-pane layout engine.

Shallow embedding of `src/ddterm/app/tabcontainer.js`, which contains the
`TabContentContainer` (pane container, one per tab) and the `SplitContainer`
(binary layout node, a `Gtk.Paned` subclass) classes, together with the
free functions `_serialize_terminal`, `_serialize_node` and
`_deserialize_node`.

Modelling conventions:

* GVariant dictionaries (`GLib.VariantDict`) are modelled as association
  lists `List (String × Val)`; `insert_value` replaces an existing key
  (GVariantDict semantics) and lookups return the first match.
* Doubles holding divider fractions are modelled as `Rat` (the code only
  stores, compares and clamps them; no rounding behaviour is relevant to
  the claims, which use a 1e-3 tolerance).
* Widgets (TerminalPage leaves and SplitContainer nodes) are identified by
  a natural-number widget id, standing for JS object identity; a fresh-id
  counter in the container state models object allocation order.
* A `SplitContainer` (a `Gtk.Paned`) holds up to two optional children
  (`pack1`/`pack2`/`remove`), each a terminal or a nested split, plus its
  `_split_position` fraction and its `_active_child` focus-tracking field.
  `_active_child` holds a widget *reference*; we model it as the referenced
  widget id.  A reference to a widget that is no longer a child of the
  split cannot be resolved inside a pure tree, so resolution maps that
  (stale) case to `none`; all states in which the code actually resolves
  the active terminal are shown to have a freshly written focus chain, so
  the stale branch is never taken where it matters.
* The terminal collaborator (`TerminalPage`) is not under `src/`.
  Modelled from the spec: a terminal carries an opaque key-value record; it
  serializes to that record and the terminal factory reconstructs a
  terminal from a given record (spec sections 3 and 4.1).
-/

set_option autoImplicit false

namespace DDTerm

/-- A GVariant value as used by the persisted session format: strings,
32-bit ints (orientation), doubles (split position, modelled as `Rat`)
and nested `a{sv}` dictionaries. -/
inductive Val where
  | vs : String → Val
  | vi : Int → Val
  | vd : Rat → Val
  | vdict : List (String × Val) → Val

/-- First-match association-list lookup (`GLib.VariantDict.lookup*`). -/
def lookupVal : List (String × Val) → String → Option Val
  | [], _ => none
  | (k, v) :: rest, key => if k = key then some v else lookupVal rest key

/-- `dict.lookup(key, 's')`: the value if present and a string. -/
def lookupStr (l : List (String × Val)) (key : String) : Option String :=
  match lookupVal l key with
  | some (.vs s) => some s
  | _ => none

/-- `dict.lookup(key, 'i')`: the value if present and an int32. -/
def lookupInt (l : List (String × Val)) (key : String) : Option Int :=
  match lookupVal l key with
  | some (.vi n) => some n
  | _ => none

/-- `dict.lookup(key, 'd')`: the value if present and a double. -/
def lookupRat (l : List (String × Val)) (key : String) : Option Rat :=
  match lookupVal l key with
  | some (.vd q) => some q
  | _ => none

/-- `dict.lookup_value(key, VariantType('a{sv}'))`: the value if present
and itself a dictionary (returned as its entry list). -/
def lookupDict (l : List (String × Val)) (key : String) :
    Option (List (String × Val)) :=
  match lookupVal l key with
  | some (.vdict d) => some d
  | _ => none

/-- `GLib.VariantDict.insert_value`: replaces any existing entry. -/
def insertKV (k : String) (v : Val) (l : List (String × Val)) :
    List (String × Val) :=
  (k, v) :: l.filter (fun kv => kv.1 ≠ k)

/-- The layout tree.  A `term` is a `TerminalPage` leaf (widget id plus its
opaque serializable record); a `split` is a `SplitContainer` with widget
id, `orientation` (`Gtk.Orientation`: 0 horizontal, 1 vertical),
`_split_position`, optional children `child1`/`child2` and the
`_active_child` reference (as a widget id, `none` for null). -/
inductive Node where
  | term : Nat → List (String × Val) → Node
  | split : Nat → Int → Rat → Option Node → Option Node → Option Nat → Node

namespace Node

/-- Widget identity of the root object of a node. -/
def wid : Node → Nat
  | .term i _ => i
  | .split sid _ _ _ _ _ => sid

/-- Is the widget a `SplitContainer`?  (`_is_split_container`). -/
def isSplit : Node → Bool
  | .term _ _ => false
  | .split _ _ _ _ _ _ => true

end Node

/-- `get_all_terminals` / `_collect_terminals`: depth-first sequence of
terminal ids, child1 before child2, skipping absent children. -/
def get_all_terminals : Node → List Nat
  | .term i _ => [i]
  | .split _ _ _ c1 c2 _ =>
      (match c1 with
       | some a => get_all_terminals a
       | none => []) ++
      (match c2 with
       | some b => get_all_terminals b
       | none => [])

/-- `contains_terminal`, reachability of a terminal id from a node. -/
def contains_terminal (t : Nat) : Node → Bool
  | .term i _ => i = t
  | .split _ _ _ c1 c2 _ =>
      (match c1 with
       | some a => contains_terminal t a
       | none => false) ||
      (match c2 with
       | some b => contains_terminal t b
       | none => false)

/-- Every `split` reachable from the node has both children present.  This
is the spec's structural invariant for completed states. -/
def fullNode : Node → Bool
  | .term _ _ => true
  | .split _ _ _ (some a) (some b) _ => fullNode a && fullNode b
  | .split _ _ _ _ _ _ => false

/-- `fullNode` on an optional tree root (an empty container is fine). -/
def fullOpt : Option Node → Bool
  | none => true
  | some n => fullNode n

/-- `_get_first_terminal`: first terminal through child1 if child1 is
present (the code returns the recursive result directly, without falling
through to child2 when that result is null), else through child2. -/
def get_first_terminal : Node → Option Nat
  | .term i _ => some i
  | .split _ _ _ c1 c2 _ =>
      match c1 with
      | some a => get_first_terminal a
      | none =>
          match c2 with
          | some b => get_first_terminal b
          | none => none

/-- Depth-first first terminal with fall-through.  This models GTK focus
propagation (`grab_focus` on a container focuses its first focusable
descendant), not `_get_first_terminal`. -/
def dfsFirstTerm : Node → Option Nat
  | .term i _ => some i
  | .split _ _ _ c1 c2 _ =>
      match (match c1 with
             | some a => dfsFirstTerm a
             | none => none) with
      | some t => some t
      | none =>
          match c2 with
          | some b => dfsFirstTerm b
          | none => none

/-- The `active_terminal` getter of `SplitContainer`: resolve through
`_active_child` when set (recursively if that child is itself a split),
else fall back to `_get_first_terminal`.  In the code the getter also
consults `get_focus_child()` between the two; `_active_child` is written
exactly by the `set-focus-child` signal, so the two fields coincide and
are modelled as one.  A stale `_active_child` (referencing a widget that
is no longer a child) resolves inside a detached widget in JS; that case
is unrepresentable in the tree model and maps to `none` (shown unreachable
wherever the container reads the getter). -/
def active_terminal : Node → Option Nat
  | .term i _ => some i
  | .split _ _ _ c1 c2 ac =>
      match ac with
      | some w =>
          match c1 with
          | some a =>
              if a.wid = w then active_terminal a
              else
                match c2 with
                | some b => if b.wid = w then active_terminal b else none
                | none => none
          | none =>
              match c2 with
              | some b => if b.wid = w then active_terminal b else none
              | none => none
      | none =>
          match c1 with
          | some a => get_first_terminal a
          | none =>
              match c2 with
              | some b => get_first_terminal b
              | none => none

/-- `_update_active_terminal`: the terminal the container designates as
active, from its content (`TerminalPage` content is itself active, a
`SplitContainer` resolves via its `active_terminal` getter). -/
def containerActive : Option Node → Option Nat
  | none => none
  | some (.term i _) => some i
  | some (.split sid o p c1 c2 ac) => active_terminal (.split sid o p c1 c2 ac)

/-- `terminal.grab_focus()` for a terminal inside the tree: GTK focus
propagation invokes `set-focus-child` on every ancestor container, so each
split on the path to the terminal records the child holding the focus in
`_active_child` (`_on_focus_child_change`). -/
def grabFocusTerm (t : Nat) : Node → Node
  | .term i f => .term i f
  | .split sid o p c1 c2 ac =>
      match c1 with
      | some a =>
          if contains_terminal t a then
            .split sid o p (some (grabFocusTerm t a)) c2 (some a.wid)
          else
            match c2 with
            | some b =>
                if contains_terminal t b then
                  .split sid o p (some a) (some (grabFocusTerm t b)) (some b.wid)
                else .split sid o p (some a) (some b) ac
            | none => .split sid o p (some a) none ac
      | none =>
          match c2 with
          | some b =>
              if contains_terminal t b then
                .split sid o p none (some (grabFocusTerm t b)) (some b.wid)
              else .split sid o p none (some b) ac
          | none => .split sid o p none none ac

/-- `node.grab_focus()` on the tree root: a terminal takes the focus, a
split (whose `grab_focus` is GTK's focus-first-focusable-descendant)
focuses its first terminal in depth-first order, if any. -/
def grabFocusNode (n : Node) : Node :=
  match dfsFirstTerm n with
  | some t => grabFocusTerm t n
  | none => n

/-- The `child === widget` test on an optional child slot. -/
def optIsWid (c : Option Node) (w : Nat) : Bool :=
  match c with
  | some x => x.wid == w
  | none => false

mutual

/-- `_find_parent_split` / `_find_parent_split_recursive`: the widget id of
the split whose immediate child is the widget `cw`, searching child1
before child2 and only recursing into split children.  (The JS version
compares object identity; widget ids model that.) -/
def find_parent_split (cw : Nat) : Node → Option Nat
  | .term _ _ => none
  | .split sid _ _ c1 c2 _ =>
      if optIsWid c1 cw || optIsWid c2 cw then some sid
      else
        match findParentChild cw c1 with
        | some r => some r
        | none => findParentChild cw c2
termination_by n => sizeOf n

/-- Recursion of the parent search into a child slot (only split children
are entered). -/
def findParentChild (cw : Nat) : Option Node → Option Nat
  | some (.split s2 o2 p2 d1 d2 a2) =>
      find_parent_split cw (.split s2 o2 p2 d1 d2 a2)
  | _ => none
termination_by c => sizeOf c

end

mutual

/-- Model plumbing for a held JS reference: the first node (depth-first)
whose widget id is `w`. -/
def findNodeByWid (w : Nat) : Node → Option Node
  | .term i f => if i = w then some (.term i f) else none
  | .split sid o p c1 c2 ac =>
      if sid = w then some (.split sid o p c1 c2 ac)
      else
        match findNodeChild w c1 with
        | some m => some m
        | none => findNodeChild w c2
termination_by n => sizeOf n

/-- The reference search on an optional child slot. -/
def findNodeChild (w : Nat) : Option Node → Option Node
  | some a => findNodeByWid w a
  | none => none
termination_by c => sizeOf c

end

mutual

/-- The graft done by `split(terminal, orientation)` inside a split tree:
locate the split directly parenting the terminal (`_find_parent_split`'s
search order: own children first, then recursively child1, then child2)
and, in place, run `parent.replace_child(terminal, new_split)` followed by
`new_split.pack1(terminal); new_split.pack2(new_terminal)` — the old child
keeps its identity inside the new split, packed on the side the terminal
occupied (the JS `replace_child` packs as child1 exactly when the old
child was child1).  In JS the parent is found and then mutated through the
held reference; the single traversal models that reference mutation.
`none` means no parent split was found (the operation is declined). -/
def graft_split (tid newTid sid : Nat) (o : Int) : Node → Option Node
  | .term _ _ => none
  | .split s o' p c1 c2 ac =>
      if optIsWid c1 tid then
        some (.split s o' p
          (some (.split sid o (1/2) c1 (some (.term newTid [])) none)) c2 ac)
      else if optIsWid c2 tid then
        some (.split s o' p c1
          (some (.split sid o (1/2) c2 (some (.term newTid [])) none)) ac)
      else
        match graftChild tid newTid sid o c1 with
        | some a' => some (.split s o' p (some a') c2 ac)
        | none =>
            match graftChild tid newTid sid o c2 with
            | some b' => some (.split s o' p c1 (some b') ac)
            | none => none
termination_by n => sizeOf n

/-- Recursion of the graft into a child slot (only split children are
entered, as in `_find_parent_split`). -/
def graftChild (tid newTid sid : Nat) (o : Int) : Option Node → Option Node
  | some (.split s2 o2 p2 d1 d2 a2) =>
      graft_split tid newTid sid o (.split s2 o2 p2 d1 d2 a2)
  | _ => none
termination_by c => sizeOf c

end

/-- Result of the collapse surgery of `collapse_terminal`. -/
inductive CollapseRes where
  | notFound : CollapseRes
  | noSibling : CollapseRes
  | done : Node → Node → CollapseRes

mutual

/-- The surgery done by `collapse_terminal(terminal)`: locate the split
directly parenting the terminal (same search order as
`_find_parent_split`), take the sibling (`child1 === terminal ? child2 :
child1`; `noSibling` when absent, upon which the code returns without
changing anything), and replace the parent split by the sibling in place —
the JS performs this replacement through held references (re-attaching the
content when the parent is the root, else `grandparent.replace_child`);
the single traversal models exactly that, and the code's defensive
"grandparent not found" branch cannot arise for a parent located within
the tree.  `done tree' sib` carries the rewritten tree and the promoted
sibling (which `grab_focus` then focuses). -/
def promote_sibling (tid : Nat) : Node → CollapseRes
  | .term _ _ => .notFound
  | .split s o p c1 c2 ac =>
      if optIsWid c1 tid || optIsWid c2 tid then
        match (if optIsWid c1 tid then c2 else c1) with
        | none => .noSibling
        | some sib => .done sib sib
      else
        match promoteChild tid c1 with
        | .done a' sib => .done (.split s o p (some a') c2 ac) sib
        | .noSibling => .noSibling
        | .notFound =>
            match promoteChild tid c2 with
            | .done b' sib => .done (.split s o p c1 (some b') ac) sib
            | r => r
termination_by n => sizeOf n

/-- Recursion of the collapse surgery into a child slot (only split
children are entered). -/
def promoteChild (tid : Nat) : Option Node → CollapseRes
  | some (.split s2 o2 p2 d1 d2 a2) =>
      promote_sibling tid (.split s2 o2 p2 d1 d2 a2)
  | _ => .notFound
termination_by c => sizeOf c

end

/-- A terminal widget being destroyed is first detached from its parent
container by GTK: the slot holding the terminal becomes empty. -/
def removeTermNode (t : Nat) : Node → Node
  | .term i f => .term i f
  | .split sid o p c1 c2 ac =>
      .split sid o p
        (match c1 with
         | some (.term i f) => if i = t then none else some (.term i f)
         | some (.split s2 o2 p2 d1 d2 a2) =>
             some (removeTermNode t (.split s2 o2 p2 d1 d2 a2))
         | none => none)
        (match c2 with
         | some (.term i f) => if i = t then none else some (.term i f)
         | some (.split s2 o2 p2 d1 d2 a2) =>
             some (removeTermNode t (.split s2 o2 p2 d1 d2 a2))
         | none => none)
        ac

/-- The `split_position` setter clamps to [0, 1]. -/
def clampPos (v : Rat) : Rat := max 0 (min 1 v)

/-- `target.split_position = target.split_position + delta` applied to the
split whose widget id is `w` (the setter clamps). -/
def adjustPosAt (w : Nat) (delta : Rat) : Node → Node
  | .term i f => .term i f
  | .split sid o p c1 c2 ac =>
      if sid = w then .split sid o (clampPos (p + delta)) c1 c2 ac
      else
        .split sid o p
          (match c1 with
           | some a => some (adjustPosAt w delta a)
           | none => none)
          (match c2 with
           | some b => some (adjustPosAt w delta b)
           | none => none)
          ac

/-- `_collapse_split_recursive`: recursively collapse nested splits, then
keep the split if both children remain, promote a single surviving child,
or collapse to nothing.  On a terminal (never reached by the code, which
only recurses into `SplitContainer` children) it is the identity. -/
def collapse_split_recursive : Node → Option Node
  | .term i f => some (.term i f)
  | .split sid o p c1 c2 ac =>
      let c1' : Option Node :=
        match c1 with
        | some (.split s2 o2 p2 d1 d2 a2) =>
            collapse_split_recursive (.split s2 o2 p2 d1 d2 a2)
        | some (.term i f) => some (.term i f)
        | none => none
      let c2' : Option Node :=
        match c2 with
        | some (.split s2 o2 p2 d1 d2 a2) =>
            collapse_split_recursive (.split s2 o2 p2 d1 d2 a2)
        | some (.term i f) => some (.term i f)
        | none => none
      match c1', c2' with
      | some a, some b => some (.split sid o p (some a) (some b) ac)
      | some a, none => some a
      | none, some b => some b
      | none, none => none

/-- `_serialize_terminal` / the terminal branch of `_serialize_node`: the
terminal's own record with a `type: "terminal"` tag inserted. -/
def serialize_terminal_rec (f : List (String × Val)) : List (String × Val) :=
  insertKV "type" (.vs "terminal") f

/-- `_serialize_node` composed with `SplitContainer.serialize_state`: a
terminal serializes to its tagged record; a split to a fresh dictionary
with `type`, `orientation`, `split-position` and the present children
under `first`/`second`.  (The JS `_serialize_node` returns null only for
widgets that are neither terminals nor splits, which do not exist in the
model.) -/
def serialize_node : Node → List (String × Val)
  | .term _ f => serialize_terminal_rec f
  | .split _ o p c1 c2 _ =>
      let base : List (String × Val) :=
        [("type", .vs "split"), ("orientation", .vi o), ("split-position", .vd p)]
      let withF : List (String × Val) :=
        match c1 with
        | some a => base ++ [("first", .vdict (serialize_node a))]
        | none => base
      match c2 with
      | some b => withF ++ [("second", .vdict (serialize_node b))]
      | none => withF

theorem lookupVal_sizeOf {l : List (String × Val)} {key : String} {v : Val}
    (h : lookupVal l key = some v) : sizeOf v < sizeOf l := by
  induction l with
  | nil => simp [lookupVal] at h
  | cons kv rest ih =>
      obtain ⟨k, w⟩ := kv
      by_cases hk : k = key
      · simp [lookupVal, hk] at h
        subst h
        simp
        omega
      · simp [lookupVal, hk] at h
        have := ih h
        simp
        omega

theorem lookupDict_sizeOf {l : List (String × Val)} {key : String}
    {d : List (String × Val)} (h : lookupDict l key = some d) :
    sizeOf d < sizeOf l := by
  unfold lookupDict at h
  revert h
  cases hv : lookupVal l key with
  | none => intro h; simp at h
  | some w =>
      cases w with
      | vdict e =>
          intro h
          simp at h
          subst h
          have := lookupVal_sizeOf hv
          simp at this
          omega
      | vs s => intro h; simp at h
      | vi n => intro h; simp at h
      | vd q => intro h; simp at h

mutual

/-- `_deserialize_node`: dispatch on the `type` tag; `"terminal"` calls the
terminal factory (modelled from the spec: a fresh terminal carrying the
given record), `"split"` recurses via `SplitContainer.deserialize_state`,
anything else yields nothing.  The functions take the record's entry list
(the `a{sv}` variant type guarantees a dictionary); the `Nat` argument
threads the fresh widget id counter (object allocation). -/
def deserialize_node (fields : List (String × Val)) (k : Nat) :
    Option Node × Nat :=
  match lookupStr fields "type" with
  | some t =>
      if t = "terminal" then (some (.term k fields), k + 1)
      else if t = "split" then deserialize_state fields k
      else (none, k)
  | none => (none, k)
termination_by (sizeOf fields, 1)

/-- `SplitContainer.deserialize_state`: null unless the record is tagged
`"split"`; otherwise a fresh split with the recorded orientation (default
horizontal = 0), children deserialized from `first`/`second` when those
are present dictionaries, and `_split_position` overwritten by the
recorded `split-position` when present (the field is initialised to 0.5).
The deferred `_apply_split_position` idle task only pushes the fraction to
pixel geometry and does not change the model state. -/
def deserialize_state (fields : List (String × Val)) (k : Nat) :
    Option Node × Nat :=
  if lookupStr fields "type" = some "split" then
    let o : Int := (lookupInt fields "orientation").getD 0
    let pos : Option Rat := lookupRat fields "split-position"
    let sid := k
    let r1 : Option Node × Nat :=
      match h1 : lookupDict fields "first" with
      | some fv => deserialize_node fv (k + 1)
      | none => (none, k + 1)
    let r2 : Option Node × Nat :=
      match h2 : lookupDict fields "second" with
      | some sv => deserialize_node sv r1.2
      | none => (none, r1.2)
    (some (.split sid o (pos.getD (1/2)) r1.1 r2.1 none), r2.2)
  else (none, k)
termination_by (sizeOf fields, 0)
decreasing_by
  · have := lookupDict_sizeOf h1
    simp only [Prod.lex_def]
    omega
  · have := lookupDict_sizeOf h2
    simp only [Prod.lex_def]
    omega

end

/-- Well-formed persisted node record: tagged `"terminal"`, or tagged
`"split"` with both child records present and themselves well-formed.
This is the shape `serialize_state` produces for trees satisfying
`fullNode`; corrupted records fall outside it. -/
def nodeRecWF (fields : List (String × Val)) : Bool :=
  match lookupStr fields "type" with
  | some t =>
      if t = "terminal" then true
      else if t = "split" then
        match h1 : lookupDict fields "first",
              h2 : lookupDict fields "second" with
        | some fv, some sv => nodeRecWF fv && nodeRecWF sv
        | _, _ => false
      else false
  | none => false
termination_by sizeOf fields
decreasing_by
  · have := lookupDict_sizeOf h1
    omega
  · have := lookupDict_sizeOf h2
    omega

/-- The mutable state of a `TabContentContainer` that the claims are
about: `_content`, `_active_terminal` (a widget id reference),
`_destroyed`, whether a `_collapse_idle` source is pending, and the fresh
widget id counter modelling object allocation. -/
structure Container where
  content : Option Node
  activeTerminal : Option Nat
  destroyed : Bool
  collapsePending : Bool
  nextId : Nat

/-- A freshly constructed container (`_init`). -/
def newContainer : Container :=
  { content := none, activeTerminal := none, destroyed := false
    collapsePending := false, nextId := 0 }

/-- The `is_split` getter: the content is a `SplitContainer`. -/
def is_split (c : Container) : Bool :=
  match c.content with
  | some (.split _ _ _ _ _ _) => true
  | _ => false

/-- `get_all_terminals` of the container. -/
def allTerminalsC (c : Container) : List Nat :=
  match c.content with
  | none => []
  | some n => get_all_terminals n

/-- `set_terminal(page)`: replace the content (the previous content is
detached, not destroyed) with a lone fresh terminal carrying record `f`;
it becomes the active terminal (`_set_active_terminal(page)`). -/
def set_terminal (c : Container) (f : List (String × Val)) : Container :=
  { c with content := some (.term c.nextId f)
           activeTerminal := some c.nextId
           nextId := c.nextId + 1 }

/-- `split(terminal, orientation)`: create a fresh terminal and a fresh
split.  If the content is exactly the given terminal, wrap both in the
split as the new root; if the content is a split tree, graft the new split
in place of the terminal via its parent split's `replace_child`, or
silently decline when no parent split is found.  In every branch the two
fresh widgets are allocated first (`_create_terminal`, `new
SplitContainer`), and on success `new_terminal.grab_focus()` updates the
focus chain and hence `_update_active_terminal`.  The function is total:
no branch raises. -/
def splitOp (c : Container) (tid : Nat) (o : Int) : Container :=
  let newTid := c.nextId
  let sid := c.nextId + 1
  match c.content with
  | some (.term i f) =>
      if i = tid then
        let tree0 : Node :=
          .split sid o (1/2) (some (.term i f)) (some (.term newTid [])) none
        let tree := grabFocusTerm newTid tree0
        { c with content := some tree
                 activeTerminal := containerActive (some tree)
                 nextId := c.nextId + 2 }
      else { c with nextId := c.nextId + 2 }
  | some (.split s0 o0 p0 d1 d2 a0) =>
      let root : Node := .split s0 o0 p0 d1 d2 a0
      match graft_split tid newTid sid o root with
      | some tree0 =>
          let tree := grabFocusTerm newTid tree0
          { c with content := some tree
                   activeTerminal := containerActive (some tree)
                   nextId := c.nextId + 2 }
      | none => { c with nextId := c.nextId + 2 }
  | none => { c with nextId := c.nextId + 2 }

/-- `unsplit()`: no-op when not split; otherwise destroy every terminal
except the active one and make the active terminal the whole content
(`active.grab_focus()` then re-derives the active terminal).  Returns the
new state and the list of destroyed terminal ids, or `none` in the states
where the JS code would throw (`active` null, or `active` not a widget of
this tree) — shown unreachable from reachable states. -/
def unsplitOp (c : Container) : Option (Container × List Nat) :=
  match c.content with
  | some (.split s0 o0 p0 d1 d2 a0) =>
      let root : Node := .split s0 o0 p0 d1 d2 a0
      match c.activeTerminal with
      | some a =>
          match findNodeByWid a root with
          | some tnode =>
              let destroyedL := (get_all_terminals root).filter (fun t => t ≠ a)
              let tree := grabFocusNode tnode
              some ({ c with content := some tree
                             activeTerminal := containerActive (some tree) },
                    destroyedL)
          | none => none
      | none => none
  | _ => some (c, [])

/-- `collapse_terminal(terminal)`: no-op when not split or when the
terminal has no parent split or no sibling; otherwise replace the parent
split with the sibling (the surgery of `promote_sibling`: as the new root
when the parent split is the content, else in place of the parent), then
`sibling.grab_focus()` and `_update_active_terminal()`.  The collapsed
terminal itself is left inside the detached parent split (not
destroyed). -/
def collapse_terminal (c : Container) (tid : Nat) : Container :=
  match c.content with
  | some (.split s0 o0 p0 d1 d2 a0) =>
      let root : Node := .split s0 o0 p0 d1 d2 a0
      match promote_sibling tid root with
      | .done tree0 sib =>
          let tree :=
            match dfsFirstTerm sib with
            | some t => grabFocusTerm t tree0
            | none => tree0
          { c with content := some tree
                   activeTerminal := containerActive (some tree) }
      | _ => c
  | _ => c

/-- `close_active_terminal()`: no-op when not split or when there is no
active terminal; otherwise collapse around the active terminal and close
it (the close is the terminal collaborator's concern; the second component
lists the terminal handed to `close()`). -/
def close_active_terminal (c : Container) : Container × List Nat :=
  if is_split c then
    match c.activeTerminal with
    | some a => (collapse_terminal c a, [a])
    | none => (c, [])
  else (c, [])

/-- The reaction to an unexpected terminal destruction
(`_on_terminal_destroyed`, with the GTK-side detachment of the destroyed
widget from its parent): a single-terminal container empties and destroys
itself; a split container gets the terminal's slot emptied and a collapse
idle task scheduled (at most one). -/
def terminalDestroyed (c : Container) (tid : Nat) : Container :=
  match c.content with
  | some (.term _ _) =>
      { c with content := none, activeTerminal := none, destroyed := true }
  | some (.split s0 o0 p0 d1 d2 a0) =>
      { c with content := some (removeTermNode tid (.split s0 o0 p0 d1 d2 a0))
               collapsePending := true }
  | none => c

/-- The deferred `_collapse_empty_splits` (the body of the
`_collapse_idle` callback, which first clears the pending source): walk
the tree with `_collapse_split_recursive`; if nothing remains the
container empties and destroys itself; otherwise the (possibly new) root
is re-attached, `result.grab_focus()` runs and the active terminal is
re-derived. -/
def collapseEmptySplits (c : Container) : Container :=
  match c.content with
  | some (.split s0 o0 p0 d1 d2 a0) =>
      match collapse_split_recursive (.split s0 o0 p0 d1 d2 a0) with
      | none =>
          { c with content := none, activeTerminal := none
                   destroyed := true, collapsePending := false }
      | some result =>
          let tree := grabFocusNode result
          { c with content := some tree
                   activeTerminal := containerActive (some tree)
                   collapsePending := false }
  | _ => { c with collapsePending := false }

/-- A UI focus move onto terminal `tid` of the tree (`grab_focus` on the
terminal; the container's `set-focus-child` handler then runs
`_update_active_terminal`).  `focus_adjacent_terminal` and
`_handle_move_to_other_pane` are special cases (they call `grab_focus` on
a terminal taken from `get_all_terminals`). -/
def focusOp (c : Container) (tid : Nat) : Container :=
  match c.content with
  | some root =>
      let tree := grabFocusTerm tid root
      { c with content := some tree
               activeTerminal := containerActive (some tree) }
  | none => c

/-- `adjust_split_position(delta)`: no-op when not split or no active
terminal; otherwise add `delta` (clamped) to the split position of the
active terminal's parent split, or of the root split when no parent split
is found. -/
def adjust_split_position (c : Container) (delta : Rat) : Container :=
  match c.content with
  | some (.split s0 o0 p0 d1 d2 a0) =>
      let root : Node := .split s0 o0 p0 d1 d2 a0
      match c.activeTerminal with
      | some a =>
          let target :=
            match find_parent_split a root with
            | some psid => psid
            | none => root.wid
          { c with content := some (adjustPosAt target delta root) }
      | none => c
  | _ => c

/-- `TabContentContainer.deserialize_state`: records tagged `"split"` go
through `SplitContainer.deserialize_state` and the resulting split (if
any) becomes the content with the active terminal re-derived; any other
record is treated as a single terminal record (legacy formats included)
and set via `set_terminal`. -/
def container_deserialize_state (fields : List (String × Val)) : Container :=
  match lookupStr fields "type" with
  | some t =>
      if t = "split" then
        match deserialize_state fields 0 with
        | (some s, n) =>
            { content := some s, activeTerminal := containerActive (some s)
              destroyed := false, collapsePending := false, nextId := n }
        | (none, n) =>
            { content := none, activeTerminal := none
              destroyed := false, collapsePending := false, nextId := n }
      else set_terminal newContainer fields
  | none => set_terminal newContainer fields

/-- Well-formedness guard for a whole persisted container record: split
records must be structurally complete; anything else deserializes as a
single terminal and needs no guard. -/
def containerRecWF (fields : List (String × Val)) : Bool :=
  match lookupStr fields "type" with
  | some t => if t = "split" then nodeRecWF fields else true
  | none => true

/-- One completed operation of a live container.  User-triggered
operations (everything except the destroy notification and the idle
callback) require no collapse task to be pending: the idle is scheduled at
`GLib.PRIORITY_HIGH` and runs before further user interaction on the
single-threaded loop. -/
inductive Step : Container → Container → Prop where
  | set_terminal (c : Container) (f : List (String × Val)) :
      c.destroyed = false → c.collapsePending = false →
      Step c (set_terminal c f)
  | split (c : Container) (tid : Nat) (o : Int) :
      c.destroyed = false → c.collapsePending = false →
      Step c (splitOp c tid o)
  | unsplit (c : Container) (r : Container × List Nat) :
      c.destroyed = false → c.collapsePending = false →
      unsplitOp c = some r → Step c r.1
  | collapse_terminal (c : Container) (tid : Nat) :
      c.destroyed = false → c.collapsePending = false →
      Step c (collapse_terminal c tid)
  | close_active (c : Container) :
      c.destroyed = false → c.collapsePending = false →
      Step c (close_active_terminal c).1
  | terminal_destroyed (c : Container) (tid : Nat) :
      c.destroyed = false → tid ∈ allTerminalsC c →
      Step c (terminalDestroyed c tid)
  | collapse_idle (c : Container) :
      c.destroyed = false → c.collapsePending = true →
      Step c (collapseEmptySplits c)
  | focus (c : Container) (tid : Nat) :
      c.destroyed = false → c.collapsePending = false →
      tid ∈ allTerminalsC c → Step c (focusOp c tid)
  | adjust (c : Container) (delta : Rat) :
      c.destroyed = false → c.collapsePending = false →
      Step c (adjust_split_position c delta)

/-- Container states reachable through the operations, with deserialization
allowed on arbitrary records (the claims' reading: `deserialize` is one of
the operations). -/
inductive ReachableFull : Container → Prop where
  | init : ReachableFull newContainer
  | deserialize (fields : List (String × Val)) :
      ReachableFull (container_deserialize_state fields)
  | step {c c' : Container} :
      ReachableFull c → Step c c' → ReachableFull c'

/-- Container states reachable through the operations when
deserialization is only applied to well-formed records. -/
inductive ReachableWF : Container → Prop where
  | init : ReachableWF newContainer
  | deserialize (fields : List (String × Val)) :
      containerRecWF fields = true →
      ReachableWF (container_deserialize_state fields)
  | step {c c' : Container} :
      ReachableWF c → Step c c' → ReachableWF c'

/-! ## Tree lemmas -/

/-- Induction over the layout tree, with hypotheses for the optional
children. -/
theorem node_ind {P : Node → Prop}
    (hterm : ∀ i f, P (.term i f))
    (hsplit : ∀ sid o p c1 c2 ac,
        (∀ a, c1 = some a → P a) → (∀ b, c2 = some b → P b) →
        P (.split sid o p c1 c2 ac)) :
    ∀ n, P n
  | .term i f => hterm i f
  | .split sid o p c1 c2 ac =>
      hsplit sid o p c1 c2 ac
        (fun a ha => node_ind hterm hsplit a)
        (fun b hb => node_ind hterm hsplit b)
termination_by n => sizeOf n
decreasing_by
  · subst ha; simp; omega
  · subst hb; simp; omega

theorem contains_iff_mem (t : Nat) (n : Node) :
    contains_terminal t n = true ↔ t ∈ get_all_terminals n := by
  induction n using node_ind with
  | hterm i f => simp [contains_terminal, get_all_terminals, eq_comm]
  | hsplit sid o p c1 c2 ac ih1 ih2 =>
      cases c1 <;> cases c2 <;>
        simp_all [contains_terminal, get_all_terminals]

theorem grabFocus_wid (t : Nat) (n : Node) :
    (grabFocusTerm t n).wid = n.wid := by
  cases n with
  | term i f => rfl
  | split sid o p c1 c2 ac =>
      cases c1 <;> cases c2 <;>
        simp [grabFocusTerm, Node.wid] <;> split_ifs <;> rfl

theorem grabFocus_terminals (t : Nat) (n : Node) :
    get_all_terminals (grabFocusTerm t n) = get_all_terminals n := by
  induction n using node_ind with
  | hterm i f => rfl
  | hsplit sid o p c1 c2 ac ih1 ih2 =>
      cases c1 with
      | none =>
          cases c2 with
          | none => rfl
          | some b =>
              simp only [grabFocusTerm]
              split_ifs <;> simp_all [get_all_terminals]
      | some a =>
          cases c2 with
          | none =>
              simp only [grabFocusTerm]
              split_ifs <;> simp_all [get_all_terminals]
          | some b =>
              simp only [grabFocusTerm]
              split_ifs <;> simp_all [get_all_terminals]

theorem grabFocus_full (t : Nat) (n : Node) :
    fullNode (grabFocusTerm t n) = fullNode n := by
  induction n using node_ind with
  | hterm i f => rfl
  | hsplit sid o p c1 c2 ac ih1 ih2 =>
      cases c1 with
      | none =>
          cases c2 with
          | none => rfl
          | some b =>
              simp only [grabFocusTerm]
              split_ifs <;> simp_all [fullNode]
      | some a =>
          cases c2 with
          | none =>
              simp only [grabFocusTerm]
              split_ifs <;> simp_all [fullNode]
          | some b =>
              simp only [grabFocusTerm]
              split_ifs <;> simp_all [fullNode]

theorem containerActive_some (n : Node) :
    containerActive (some n) = active_terminal n := by
  cases n <;> rfl

/-- All widget ids of a tree (the node's own id first, then child1's,
then child2's). -/
def nodeWids : Node → List Nat
  | .term i _ => [i]
  | .split sid _ _ c1 c2 _ =>
      sid ::
        ((match c1 with
          | some a => nodeWids a
          | none => []) ++
         (match c2 with
          | some b => nodeWids b
          | none => []))

theorem wid_mem_nodeWids (n : Node) : n.wid ∈ nodeWids n := by
  cases n with
  | term i f => simp [nodeWids, Node.wid]
  | split sid o p c1 c2 ac =>
      cases c1 <;> cases c2 <;> simp [nodeWids, Node.wid]

theorem terminals_subset_wids {t : Nat} (n : Node)
    (h : t ∈ get_all_terminals n) : t ∈ nodeWids n := by
  induction n using node_ind with
  | hterm i f => simp_all [get_all_terminals, nodeWids]
  | hsplit sid o p c1 c2 ac ih1 ih2 =>
      cases c1 <;> cases c2 <;>
        simp_all [get_all_terminals, nodeWids] <;> tauto

theorem grabFocus_wids (t : Nat) (n : Node) :
    nodeWids (grabFocusTerm t n) = nodeWids n := by
  induction n using node_ind with
  | hterm i f => rfl
  | hsplit sid o p c1 c2 ac ih1 ih2 =>
      cases c1 with
      | none =>
          cases c2 with
          | none => rfl
          | some b =>
              simp only [grabFocusTerm]
              split_ifs <;> simp_all [nodeWids]
      | some a =>
          cases c2 with
          | none =>
              simp only [grabFocusTerm]
              split_ifs <;> simp_all [nodeWids]
          | some b =>
              simp only [grabFocusTerm]
              split_ifs <;> simp_all [nodeWids]

/-- Resolving the active terminal right after `grab_focus` on a terminal
of the tree yields exactly that terminal: the getter follows the focus
chain the grab has just written.  Distinctness of widget ids models JS
object identity (two distinct widgets never compare equal). -/
theorem active_grabFocus (t : Nat) (n : Node)
    (hnd : (nodeWids n).Nodup)
    (h : contains_terminal t n = true) :
    active_terminal (grabFocusTerm t n) = some t := by
  induction n using node_ind with
  | hterm i f =>
      simp [contains_terminal] at h
      simp [grabFocusTerm, active_terminal, h]
  | hsplit sid o p c1 c2 ac ih1 ih2 =>
      cases c1 with
      | none =>
          cases c2 with
          | none => simp [contains_terminal] at h
          | some b =>
              simp only [contains_terminal, Bool.false_or] at h
              simp only [grabFocusTerm, h, if_true]
              simp only [active_terminal, grabFocus_wid, if_pos rfl]
              refine ih2 b rfl ?_ h
              simp only [nodeWids, List.nodup_cons, List.nil_append] at hnd
              exact hnd.2
      | some a =>
          cases c2 with
          | none =>
              simp only [contains_terminal, Bool.or_false] at h
              simp only [grabFocusTerm, h, if_true]
              simp only [active_terminal, grabFocus_wid, if_pos rfl]
              refine ih1 a rfl ?_ h
              simp only [nodeWids, List.nodup_cons, List.append_nil] at hnd
              exact hnd.2
          | some b =>
              have hnda : (nodeWids a).Nodup := by
                simp only [nodeWids, List.nodup_cons, List.nodup_append] at hnd
                exact hnd.2.1
              have hndb : (nodeWids b).Nodup := by
                simp only [nodeWids, List.nodup_cons, List.nodup_append] at hnd
                exact hnd.2.2.1
              by_cases ha : contains_terminal t a
              · simp only [grabFocusTerm, ha, if_true]
                simp only [active_terminal, grabFocus_wid, if_pos rfl]
                exact ih1 a rfl hnda ha
              · simp only [contains_terminal, ha, Bool.false_or] at h
                simp only [grabFocusTerm, ha, if_false, h, if_true]
                simp only [active_terminal]
                have hww : ¬ a.wid = b.wid := by
                  simp only [nodeWids, List.nodup_cons, List.nodup_append] at hnd
                  intro he
                  exact hnd.2.2.2 (wid_mem_nodeWids a) (he ▸ wid_mem_nodeWids b)
                rw [if_neg hww, if_pos (grabFocus_wid t b)]
                exact ih2 b rfl hndb h

/-- `nodeWids` of an optional child slot. -/
def widsO : Option Node → List Nat
  | some n => nodeWids n
  | none => []

/-- `get_all_terminals` of an optional child slot. -/
def termsO : Option Node → List Nat
  | some n => get_all_terminals n
  | none => []

/-- `fullNode` of an optional child slot (an absent child is a missing
child). -/
def fullO : Option Node → Bool
  | some n => fullNode n
  | none => false

theorem nodeWids_split (sid : Nat) (o : Int) (p : Rat)
    (c1 c2 : Option Node) (ac : Option Nat) :
    nodeWids (.split sid o p c1 c2 ac) = sid :: (widsO c1 ++ widsO c2) := by
  cases c1 <;> cases c2 <;> simp [nodeWids, widsO]

theorem terminals_split (sid : Nat) (o : Int) (p : Rat)
    (c1 c2 : Option Node) (ac : Option Nat) :
    get_all_terminals (.split sid o p c1 c2 ac) = termsO c1 ++ termsO c2 := by
  cases c1 <;> cases c2 <;> simp [get_all_terminals, termsO]

theorem fullNode_split (sid : Nat) (o : Int) (p : Rat)
    (c1 c2 : Option Node) (ac : Option Nat) :
    fullNode (.split sid o p c1 c2 ac) = (fullO c1 && fullO c2) := by
  cases c1 <;> cases c2 <;> simp [fullNode, fullO]

theorem widsO_some (n : Node) : widsO (some n) = nodeWids n := rfl

theorem widsO_none : widsO none = [] := rfl

theorem termsO_some (n : Node) : termsO (some n) = get_all_terminals n := rfl

theorem termsO_none : termsO none = [] := rfl

theorem fullO_some (n : Node) : fullO (some n) = fullNode n := rfl

theorem nodeWids_term (i : Nat) (f : List (String × Val)) :
    nodeWids (.term i f) = [i] := rfl

theorem terminals_term (i : Nat) (f : List (String × Val)) :
    get_all_terminals (.term i f) = [i] := rfl

theorem fullNode_term (i : Nat) (f : List (String × Val)) :
    fullNode (.term i f) = true := rfl

theorem graftChild_some {tid newTid sid : Nat} {o : Int}
    {c : Option Node} {a' : Node}
    (h : graftChild tid newTid sid o c = some a') :
    ∃ x, c = some x ∧ graft_split tid newTid sid o x = some a' := by
  cases c with
  | none => simp [graftChild] at h
  | some x =>
      cases x with
      | term i f => simp [graftChild] at h
      | split s2 o2 p2 d1 d2 a2 =>
          exact ⟨_, rfl, by simpa [graftChild] using h⟩

theorem graftChild_none {tid newTid sid : Nat} {o : Int}
    {c : Option Node}
    (h : graftChild tid newTid sid o c = none) :
    ∀ x, c = some x → graft_split tid newTid sid o x = none := by
  intro x hx
  subst hx
  cases x with
  | term i f => simp [graft_split]
  | split s2 o2 p2 d1 d2 a2 => simpa [graftChild] using h

/-- The graft inserts exactly the two fresh widgets (the new split and the
new terminal); every other widget of the tree survives. -/
theorem graft_wids (tid newTid sid : Nat) (o : Int) :
    ∀ (n m : Node), graft_split tid newTid sid o n = some m →
      (nodeWids m).Perm (sid :: newTid :: nodeWids n) := by
  intro n
  induction n using node_ind with
  | hterm i f => intro m h; simp [graft_split] at h
  | hsplit s o' p c1 c2 ac ih1 ih2 =>
      intro m h
      simp only [graft_split] at h
      by_cases hc1 : optIsWid c1 tid
      · rw [if_pos hc1] at h
        simp only [Option.some.injEq] at h
        subst h
        simp only [nodeWids_split, widsO_some, widsO_none, nodeWids_term]
        rw [List.perm_iff_count]
        intro x
        simp only [List.count_cons, List.count_append, List.count_nil]
        ring
      · rw [if_neg hc1] at h
        by_cases hc2 : optIsWid c2 tid
        · rw [if_pos hc2] at h
          simp only [Option.some.injEq] at h
          subst h
          simp only [nodeWids_split, widsO_some, widsO_none, nodeWids_term]
          rw [List.perm_iff_count]
          intro x
          simp only [List.count_cons, List.count_append, List.count_nil]
          ring
        · rw [if_neg hc2] at h
          cases hg1 : graftChild tid newTid sid o c1 with
          | some a' =>
              rw [hg1] at h
              simp only [Option.some.injEq] at h
              subst h
              obtain ⟨x, hx, hgx⟩ := graftChild_some hg1
              subst hx
              have hperm := ih1 x rfl a' hgx
              simp only [nodeWids_split, widsO_some, widsO_none, nodeWids_term]
              rw [List.perm_iff_count]
              intro y
              have hcnt := hperm.count_eq y
              simp only [List.count_cons, List.count_append] at hcnt ⊢
              rw [hcnt]
              ring
          | none =>
              rw [hg1] at h
              cases hg2 : graftChild tid newTid sid o c2 with
              | some b' =>
                  rw [hg2] at h
                  simp only [Option.some.injEq] at h
                  subst h
                  obtain ⟨y, hy, hgy⟩ := graftChild_some hg2
                  subst hy
                  have hperm := ih2 y rfl b' hgy
                  simp only [nodeWids_split, widsO_some, widsO_none, nodeWids_term]
                  rw [List.perm_iff_count]
                  intro z
                  have hcnt := hperm.count_eq z
                  simp only [List.count_cons, List.count_append] at hcnt ⊢
                  rw [hcnt]
                  ring
              | none => rw [hg2] at h; exact absurd h (by simp)

/-- The graft inserts exactly the new terminal into the terminal
sequence; every existing terminal survives (`split` never destroys a
terminal). -/
theorem graft_terminals (tid newTid sid : Nat) (o : Int) :
    ∀ (n m : Node), graft_split tid newTid sid o n = some m →
      (get_all_terminals m).Perm (newTid :: get_all_terminals n) := by
  intro n
  induction n using node_ind with
  | hterm i f => intro m h; simp [graft_split] at h
  | hsplit s o' p c1 c2 ac ih1 ih2 =>
      intro m h
      simp only [graft_split] at h
      by_cases hc1 : optIsWid c1 tid
      · rw [if_pos hc1] at h
        simp only [Option.some.injEq] at h
        subst h
        simp only [terminals_split, termsO_some, termsO_none, terminals_term]
        rw [List.perm_iff_count]
        intro x
        simp only [List.count_cons, List.count_append, List.count_nil]
        ring
      · rw [if_neg hc1] at h
        by_cases hc2 : optIsWid c2 tid
        · rw [if_pos hc2] at h
          simp only [Option.some.injEq] at h
          subst h
          simp only [terminals_split, termsO_some, termsO_none, terminals_term]
          rw [List.perm_iff_count]
          intro x
          simp only [List.count_cons, List.count_append, List.count_nil]
          ring
        · rw [if_neg hc2] at h
          cases hg1 : graftChild tid newTid sid o c1 with
          | some a' =>
              rw [hg1] at h
              simp only [Option.some.injEq] at h
              subst h
              obtain ⟨x, hx, hgx⟩ := graftChild_some hg1
              subst hx
              have hperm := ih1 x rfl a' hgx
              simp only [terminals_split, termsO_some, termsO_none, terminals_term]
              rw [List.perm_iff_count]
              intro y
              have hcnt := hperm.count_eq y
              simp only [List.count_cons, List.count_append] at hcnt ⊢
              rw [hcnt]
              ring
          | none =>
              rw [hg1] at h
              cases hg2 : graftChild tid newTid sid o c2 with
              | some b' =>
                  rw [hg2] at h
                  simp only [Option.some.injEq] at h
                  subst h
                  obtain ⟨y, hy, hgy⟩ := graftChild_some hg2
                  subst hy
                  have hperm := ih2 y rfl b' hgy
                  simp only [terminals_split, termsO_some, termsO_none, terminals_term]
                  rw [List.perm_iff_count]
                  intro z
                  have hcnt := hperm.count_eq z
                  simp only [List.count_cons, List.count_append] at hcnt ⊢
                  rw [hcnt]
                  ring
              | none => rw [hg2] at h; exact absurd h (by simp)

/-- The graft keeps the tree fully populated: the new split gets both
children, the grafted slot stays filled. -/
theorem graft_full (tid newTid sid : Nat) (o : Int) :
    ∀ (n m : Node), graft_split tid newTid sid o n = some m →
      fullNode n = true → fullNode m = true := by
  intro n
  induction n using node_ind with
  | hterm i f => intro m h; simp [graft_split] at h
  | hsplit s o' p c1 c2 ac ih1 ih2 =>
      intro m h hfull
      rw [fullNode_split, Bool.and_eq_true] at hfull
      simp only [graft_split] at h
      by_cases hc1 : optIsWid c1 tid
      · rw [if_pos hc1] at h
        simp only [Option.some.injEq] at h
        subst h
        simp [fullNode_split, fullO_some, fullNode_term, hfull.1, hfull.2]
      · rw [if_neg hc1] at h
        by_cases hc2 : optIsWid c2 tid
        · rw [if_pos hc2] at h
          simp only [Option.some.injEq] at h
          subst h
          simp [fullNode_split, fullO_some, fullNode_term, hfull.1, hfull.2]
        · rw [if_neg hc2] at h
          cases hg1 : graftChild tid newTid sid o c1 with
          | some a' =>
              rw [hg1] at h
              simp only [Option.some.injEq] at h
              subst h
              obtain ⟨x, hx, hgx⟩ := graftChild_some hg1
              have hfx : fullNode x = true := by
                rw [hx] at hfull
                simpa [fullO] using hfull.1
              simp [fullNode_split, fullO_some, ih1 x hx a' hgx hfx, hfull.2]
          | none =>
              rw [hg1] at h
              cases hg2 : graftChild tid newTid sid o c2 with
              | some b' =>
                  rw [hg2] at h
                  simp only [Option.some.injEq] at h
                  subst h
                  obtain ⟨y, hy, hgy⟩ := graftChild_some hg2
                  have hfy : fullNode y = true := by
                    rw [hy] at hfull
                    simpa [fullO] using hfull.2
                  simp [fullNode_split, fullO_some, ih2 y hy b' hgy hfy, hfull.1]
              | none => rw [hg2] at h; exact absurd h (by simp)

/-- `split` declines exactly when `_find_parent_split` finds no parent
split for the terminal. -/
theorem graft_none_iff (tid newTid sid : Nat) (o : Int) :
    ∀ n, graft_split tid newTid sid o n = none ↔
      find_parent_split tid n = none := by
  intro n
  induction n using node_ind with
  | hterm i f => simp [graft_split, find_parent_split]
  | hsplit s o' p c1 c2 ac ih1 ih2 =>
      have hchild : ∀ c : Option Node,
          (∀ x, c = some x →
            (graft_split tid newTid sid o x = none ↔
              find_parent_split tid x = none)) →
          (graftChild tid newTid sid o c = none ↔
            findParentChild tid c = none) := by
        intro c hc
        cases c with
        | none => simp [graftChild, findParentChild]
        | some x =>
            cases x with
            | term i f => simp [graftChild, findParentChild]
            | split s2 o2 p2 d1 d2 a2 =>
                simpa [graftChild, findParentChild] using hc _ rfl
      simp only [graft_split, find_parent_split]
      by_cases hc1 : optIsWid c1 tid
      · simp [hc1]
      · by_cases hc2 : optIsWid c2 tid
        · simp [hc1, hc2]
        · simp only [hc1, hc2, Bool.or_self, if_neg, if_false]
          cases hg1 : graftChild tid newTid sid o c1 with
          | some a' =>
              cases hp1 : findParentChild tid c1 with
              | some r => simp
              | none =>
                  rw [(hchild c1 ih1).mpr hp1] at hg1
                  exact absurd hg1 (by simp)
          | none =>
              rw [(hchild c1 ih1).mp hg1]
              cases hg2 : graftChild tid newTid sid o c2 with
              | some b' =>
                  cases hp2 : findParentChild tid c2 with
                  | some r => simp
                  | none =>
                      rw [(hchild c2 ih2).mpr hp2] at hg2
                      exact absurd hg2 (by simp)
              | none =>
                  rw [(hchild c2 ih2).mp hg2]
                  simp

theorem promoteChild_done {tid : Nat} {c : Option Node} {m sib : Node}
    (h : promoteChild tid c = .done m sib) :
    ∃ x, c = some x ∧ promote_sibling tid x = .done m sib := by
  cases c with
  | none => simp [promoteChild] at h
  | some x =>
      cases x with
      | term i f => simp [promoteChild] at h
      | split s2 o2 p2 d1 d2 a2 =>
          exact ⟨_, rfl, by simpa [promoteChild] using h⟩

/-- The collapse surgery only removes widgets: every widget id of the
result was a widget id of the original tree, with multiplicity. -/
theorem promote_wids (tid : Nat) :
    ∀ (n m sib : Node), promote_sibling tid n = .done m sib →
      (nodeWids m).Sublist (nodeWids n) := by
  intro n
  induction n using node_ind with
  | hterm i f => intro m sib h; simp [promote_sibling] at h
  | hsplit s o p c1 c2 ac ih1 ih2 =>
      intro m sib h
      simp only [promote_sibling] at h
      by_cases hc : (optIsWid c1 tid || optIsWid c2 tid) = true
      · rw [if_pos hc] at h
        by_cases hc1 : optIsWid c1 tid
        · rw [if_pos hc1] at h
          cases c2 with
          | none => simp at h
          | some y =>
              simp only [CollapseRes.done.injEq] at h
              rw [nodeWids_split, ← h.1]
              exact ((List.sublist_append_right _ _).trans
                (List.sublist_cons_self _ _))
        · rw [if_neg hc1] at h
          cases c1 with
          | none => simp at h
          | some x =>
              simp only [CollapseRes.done.injEq] at h
              rw [nodeWids_split, ← h.1]
              exact ((List.sublist_append_left _ _).trans
                (List.sublist_cons_self _ _))
      · rw [if_neg hc] at h
        cases hg1 : promoteChild tid c1 with
        | done a' sib1 =>
            rw [hg1] at h
            simp only [CollapseRes.done.injEq] at h
            obtain ⟨x, hx, hpx⟩ := promoteChild_done hg1
            subst hx
            rw [← h.1, nodeWids_split, nodeWids_split, widsO_some]
            exact List.Sublist.cons₂ s
              (List.Sublist.append (ih1 x rfl a' sib1 hpx) (List.Sublist.refl _))
        | noSibling => rw [hg1] at h; simp at h
        | notFound =>
            rw [hg1] at h
            cases hg2 : promoteChild tid c2 with
            | done b' sib2 =>
                rw [hg2] at h
                simp only [CollapseRes.done.injEq] at h
                obtain ⟨y, hy, hpy⟩ := promoteChild_done hg2
                subst hy
                rw [← h.1, nodeWids_split, nodeWids_split, widsO_some]
                exact List.Sublist.cons₂ s
                  (List.Sublist.append (List.Sublist.refl _)
                    (ih2 y rfl b' sib2 hpy))
            | noSibling => rw [hg2] at h; simp at h
            | notFound => rw [hg2] at h; simp at h

/-- The collapse surgery keeps a fully populated tree fully populated, and
the promoted sibling is itself fully populated. -/
theorem promote_full (tid : Nat) :
    ∀ (n m sib : Node), promote_sibling tid n = .done m sib →
      fullNode n = true → fullNode m = true ∧ fullNode sib = true := by
  intro n
  induction n using node_ind with
  | hterm i f => intro m sib h; simp [promote_sibling] at h
  | hsplit s o p c1 c2 ac ih1 ih2 =>
      intro m sib h hfull
      rw [fullNode_split, Bool.and_eq_true] at hfull
      simp only [promote_sibling] at h
      by_cases hc : (optIsWid c1 tid || optIsWid c2 tid) = true
      · rw [if_pos hc] at h
        by_cases hc1 : optIsWid c1 tid
        · rw [if_pos hc1] at h
          cases c2 with
          | none => simp at h
          | some y =>
              simp only [CollapseRes.done.injEq] at h
              have : fullNode y = true := by simpa [fullO] using hfull.2
              exact ⟨h.1 ▸ this, h.2 ▸ this⟩
        · rw [if_neg hc1] at h
          cases c1 with
          | none => simp at h
          | some x =>
              simp only [CollapseRes.done.injEq] at h
              have : fullNode x = true := by simpa [fullO] using hfull.1
              exact ⟨h.1 ▸ this, h.2 ▸ this⟩
      · rw [if_neg hc] at h
        cases hg1 : promoteChild tid c1 with
        | done a' sib1 =>
            rw [hg1] at h
            simp only [CollapseRes.done.injEq] at h
            obtain ⟨x, hx, hpx⟩ := promoteChild_done hg1
            have hfx : fullNode x = true := by
              rw [hx] at hfull
              simpa [fullO] using hfull.1
            obtain ⟨hfa, hfs⟩ := ih1 x hx a' sib1 hpx hfx
            refine ⟨?_, h.2 ▸ hfs⟩
            rw [← h.1, fullNode_split]
            simp [fullO_some, hfa, hfull.2]
        | noSibling => rw [hg1] at h; simp at h
        | notFound =>
            rw [hg1] at h
            cases hg2 : promoteChild tid c2 with
            | done b' sib2 =>
                rw [hg2] at h
                simp only [CollapseRes.done.injEq] at h
                obtain ⟨y, hy, hpy⟩ := promoteChild_done hg2
                have hfy : fullNode y = true := by
                  rw [hy] at hfull
                  simpa [fullO] using hfull.2
                obtain ⟨hfb, hfs⟩ := ih2 y hy b' sib2 hpy hfy
                refine ⟨?_, h.2 ▸ hfs⟩
                rw [← h.1, fullNode_split]
                simp [fullO_some, hfb, hfull.1]
            | noSibling => rw [hg2] at h; simp at h
            | notFound => rw [hg2] at h; simp at h

/-- Terminals of the promoted sibling are terminals of the rewritten
tree. -/
theorem promote_sib_terms (tid : Nat) :
    ∀ (n m sib : Node), promote_sibling tid n = .done m sib →
      ∀ t, t ∈ get_all_terminals sib → t ∈ get_all_terminals m := by
  intro n
  induction n using node_ind with
  | hterm i f => intro m sib h; simp [promote_sibling] at h
  | hsplit s o p c1 c2 ac ih1 ih2 =>
      intro m sib h t ht
      simp only [promote_sibling] at h
      by_cases hc : (optIsWid c1 tid || optIsWid c2 tid) = true
      · rw [if_pos hc] at h
        by_cases hc1 : optIsWid c1 tid
        · rw [if_pos hc1] at h
          cases c2 with
          | none => simp at h
          | some y =>
              simp only [CollapseRes.done.injEq] at h
              rw [← h.1, h.2]
              exact ht
        · rw [if_neg hc1] at h
          cases c1 with
          | none => simp at h
          | some x =>
              simp only [CollapseRes.done.injEq] at h
              rw [← h.1, h.2]
              exact ht
      · rw [if_neg hc] at h
        cases hg1 : promoteChild tid c1 with
        | done a' sib1 =>
            rw [hg1] at h
            simp only [CollapseRes.done.injEq] at h
            obtain ⟨x, hx, hpx⟩ := promoteChild_done hg1
            rw [← h.1, terminals_split, termsO_some]
            refine List.mem_append_left _ ?_
            exact ih1 x hx a' sib1 hpx t (h.2 ▸ ht)
        | noSibling => rw [hg1] at h; simp at h
        | notFound =>
            rw [hg1] at h
            cases hg2 : promoteChild tid c2 with
            | done b' sib2 =>
                rw [hg2] at h
                simp only [CollapseRes.done.injEq] at h
                obtain ⟨y, hy, hpy⟩ := promoteChild_done hg2
                rw [← h.1, terminals_split, termsO_some]
                refine List.mem_append_right _ ?_
                exact ih2 y hy b' sib2 hpy t (h.2 ▸ ht)
            | noSibling => rw [hg2] at h; simp at h
            | notFound => rw [hg2] at h; simp at h

theorem findNodeChild_some {w : Nat} {c : Option Node} {m : Node}
    (h : findNodeChild w c = some m) :
    ∃ x, c = some x ∧ findNodeByWid w x = some m := by
  cases c with
  | none => simp [findNodeChild] at h
  | some x => exact ⟨x, rfl, by simpa [findNodeChild] using h⟩

/-- A node found by widget id is a subtree: its widgets are among the
tree's widgets, it is fully populated whenever the tree is, its terminals
are terminals of the tree, and its id is the one searched. -/
theorem findNode_facts (w : Nat) :
    ∀ (n m : Node), findNodeByWid w n = some m →
      (nodeWids m).Sublist (nodeWids n) ∧
      (fullNode n = true → fullNode m = true) ∧
      (∀ t, t ∈ get_all_terminals m → t ∈ get_all_terminals n) ∧
      m.wid = w := by
  intro n
  induction n using node_ind with
  | hterm i f =>
      intro m h
      simp only [findNodeByWid] at h
      by_cases hi : i = w
      · rw [if_pos hi] at h
        simp only [Option.some.injEq] at h
        subst h
        exact ⟨List.Sublist.refl _, fun hf => hf, fun t ht => ht, hi⟩
      · rw [if_neg hi] at h
        exact absurd h (by simp)
  | hsplit sid o p c1 c2 ac ih1 ih2 =>
      intro m h
      simp only [findNodeByWid] at h
      by_cases hs : sid = w
      · rw [if_pos hs] at h
        simp only [Option.some.injEq] at h
        subst h
        exact ⟨List.Sublist.refl _, fun hf => hf, fun t ht => ht, hs⟩
      · rw [if_neg hs] at h
        cases hf1 : findNodeChild w c1 with
        | some m1 =>
            rw [hf1] at h
            simp only [Option.some.injEq] at h
            obtain ⟨x, hx, hfx⟩ := findNodeChild_some hf1
            obtain ⟨hsub, hfull, hterms, hwid⟩ := ih1 x hx m1 hfx
            subst h
            subst hx
            refine ⟨?_, ?_, ?_, hwid⟩
            · rw [nodeWids_split, widsO_some]
              exact (hsub.trans (List.sublist_append_left _ _)).trans
                (List.sublist_cons_self _ _)
            · intro hfn
              rw [fullNode_split, Bool.and_eq_true] at hfn
              exact hfull (by simpa [fullO] using hfn.1)
            · intro t ht
              rw [terminals_split, termsO_some]
              exact List.mem_append_left _ (hterms t ht)
        | none =>
            rw [hf1] at h
            obtain ⟨y, hy, hfy⟩ := findNodeChild_some h
            obtain ⟨hsub, hfull, hterms, hwid⟩ := ih2 y hy m hfy
            subst hy
            refine ⟨?_, ?_, ?_, hwid⟩
            · rw [nodeWids_split, widsO_some]
              exact (hsub.trans (List.sublist_append_right _ _)).trans
                (List.sublist_cons_self _ _)
            · intro hfn
              rw [fullNode_split, Bool.and_eq_true] at hfn
              exact hfull (by simpa [fullO] using hfn.2)
            · intro t ht
              rw [terminals_split, termsO_some]
              exact List.mem_append_right _ (hterms t ht)

/-- The destroyed-terminal detachment on one child slot. -/
def removeSlot (t : Nat) : Option Node → Option Node
  | some (.term i f) => if i = t then none else some (.term i f)
  | some (.split s2 o2 p2 d1 d2 a2) =>
      some (removeTermNode t (.split s2 o2 p2 d1 d2 a2))
  | none => none

theorem removeTermNode_eq (t sid : Nat) (o : Int) (p : Rat)
    (c1 c2 : Option Node) (ac : Option Nat) :
    removeTermNode t (.split sid o p c1 c2 ac) =
      .split sid o p (removeSlot t c1) (removeSlot t c2) ac := by
  cases c1 with
  | none => cases c2 with
    | none => rfl
    | some b => cases b <;> rfl
  | some a =>
      cases a <;> cases c2 with
      | none => rfl
      | some b => cases b <;> rfl

/-- Detaching a destroyed terminal only removes widgets. -/
theorem removeTerm_wids (t : Nat) :
    ∀ n, (nodeWids (removeTermNode t n)).Sublist (nodeWids n) := by
  intro n
  induction n using node_ind with
  | hterm i f => exact List.Sublist.refl _
  | hsplit sid o p c1 c2 ac ih1 ih2 =>
      have hslot : ∀ (c : Option Node),
          (∀ x, c = some x →
            (nodeWids (removeTermNode t x)).Sublist (nodeWids x)) →
          (widsO (removeSlot t c)).Sublist (widsO c) := by
        intro c hc
        cases c with
        | none => exact List.Sublist.refl _
        | some x =>
            cases x with
            | term i f =>
                by_cases hi : i = t
                · simp [removeSlot, hi, widsO]
                · simp only [removeSlot, hi, if_neg, if_false]
                  exact List.Sublist.refl _
            | split s2 o2 p2 d1 d2 a2 =>
                simpa [removeSlot, widsO] using hc _ rfl
      rw [removeTermNode_eq, nodeWids_split, nodeWids_split]
      exact List.Sublist.cons₂ sid
        (List.Sublist.append (hslot c1 ih1) (hslot c2 ih2))

/-- The divider adjustment on one child slot. -/
def adjSlot (w : Nat) (d : Rat) : Option Node → Option Node
  | some a => some (adjustPosAt w d a)
  | none => none

theorem adjustPosAt_eq (w : Nat) (d : Rat) (sid : Nat) (o : Int) (p : Rat)
    (c1 c2 : Option Node) (ac : Option Nat) :
    adjustPosAt w d (.split sid o p c1 c2 ac) =
      if sid = w then .split sid o (clampPos (p + d)) c1 c2 ac
      else .split sid o p (adjSlot w d c1) (adjSlot w d c2) ac := by
  cases c1 <;> cases c2 <;> simp [adjustPosAt, adjSlot]

/-- Divider adjustment changes no structure: widgets, terminals and
fullness are untouched. -/
theorem adjustPos_preserves (w : Nat) (d : Rat) :
    ∀ n, nodeWids (adjustPosAt w d n) = nodeWids n ∧
      get_all_terminals (adjustPosAt w d n) = get_all_terminals n ∧
      fullNode (adjustPosAt w d n) = fullNode n := by
  intro n
  induction n using node_ind with
  | hterm i f => exact ⟨rfl, rfl, rfl⟩
  | hsplit sid o p c1 c2 ac ih1 ih2 =>
      rw [adjustPosAt_eq]
      by_cases hs : sid = w
      · rw [if_pos hs]
        exact ⟨by rw [nodeWids_split, nodeWids_split],
               by rw [terminals_split, terminals_split],
               by rw [fullNode_split, fullNode_split]⟩
      · rw [if_neg hs]
        have hslot : ∀ (c : Option Node),
            (∀ x, c = some x →
              nodeWids (adjustPosAt w d x) = nodeWids x ∧
              get_all_terminals (adjustPosAt w d x) = get_all_terminals x ∧
              fullNode (adjustPosAt w d x) = fullNode x) →
            widsO (adjSlot w d c) = widsO c ∧
            termsO (adjSlot w d c) = termsO c ∧
            fullO (adjSlot w d c) = fullO c := by
          intro c hc
          cases c with
          | none => exact ⟨rfl, rfl, rfl⟩
          | some x =>
              obtain ⟨h1, h2, h3⟩ := hc x rfl
              exact ⟨by simpa [adjSlot, widsO] using h1,
                     by simpa [adjSlot, termsO] using h2,
                     by simpa [adjSlot, fullO] using h3⟩
        obtain ⟨ha1, ha2, ha3⟩ := hslot c1 ih1
        obtain ⟨hb1, hb2, hb3⟩ := hslot c2 ih2
        refine ⟨?_, ?_, ?_⟩
        · rw [nodeWids_split, nodeWids_split, ha1, hb1]
        · rw [terminals_split, terminals_split, ha2, hb2]
        · rw [fullNode_split, fullNode_split, ha3, hb3]

theorem full_first_terminal (n : Node) (h : fullNode n = true) :
    ∃ t, get_first_terminal n = some t ∧ t ∈ get_all_terminals n := by
  induction n using node_ind with
  | hterm i f => exact ⟨i, rfl, by simp [get_all_terminals]⟩
  | hsplit sid o p c1 c2 ac ih1 ih2 =>
      cases c1 with
      | none => cases c2 <;> simp [fullNode] at h
      | some a =>
          cases c2 with
          | none => simp [fullNode] at h
          | some b =>
              simp only [fullNode, Bool.and_eq_true] at h
              obtain ⟨t, ht, hmem⟩ := ih1 a rfl h.1
              exact ⟨t, by simpa [get_first_terminal] using ht,
                     by simp [get_all_terminals, hmem]⟩

theorem full_dfsFirst (n : Node) (h : fullNode n = true) :
    ∃ t, dfsFirstTerm n = some t ∧ t ∈ get_all_terminals n := by
  induction n using node_ind with
  | hterm i f => exact ⟨i, rfl, by simp [get_all_terminals]⟩
  | hsplit sid o p c1 c2 ac ih1 ih2 =>
      cases c1 with
      | none => cases c2 <;> simp [fullNode] at h
      | some a =>
          cases c2 with
          | none => simp [fullNode] at h
          | some b =>
              simp only [fullNode, Bool.and_eq_true] at h
              obtain ⟨t, ht, hmem⟩ := ih1 a rfl h.1
              refine ⟨t, ?_, by simp [get_all_terminals, hmem]⟩
              simp [dfsFirstTerm, ht]

/-- With no recorded focus at the root (as right after deserialization),
the getter falls back to the first terminal, which exists in a fully
populated tree. -/
theorem active_acNone_root (sid : Nat) (o : Int) (p : Rat)
    (c1 c2 : Option Node)
    (h : fullNode (.split sid o p c1 c2 none) = true) :
    ∃ t, active_terminal (.split sid o p c1 c2 none) = some t ∧
      t ∈ get_all_terminals (.split sid o p c1 c2 none) := by
  cases c1 with
  | none => cases c2 <;> simp [fullNode] at h
  | some a =>
      cases c2 with
      | none => simp [fullNode] at h
      | some b =>
          simp only [fullNode, Bool.and_eq_true] at h
          obtain ⟨t, ht, hmem⟩ := full_first_terminal a h.1
          exact ⟨t, by simpa [active_terminal] using ht,
                 by simp [get_all_terminals, hmem]⟩

/-- The collapse applied to a child slot: terminals and empty slots are
untouched, split children are collapsed recursively. -/
def collapseOptChild : Option Node → Option Node
  | some n => collapse_split_recursive n
  | none => none

theorem collapse_eq (sid : Nat) (o : Int) (p : Rat) (c1 c2 : Option Node)
    (ac : Option Nat) :
    collapse_split_recursive (.split sid o p c1 c2 ac) =
      match collapseOptChild c1, collapseOptChild c2 with
      | some a, some b => some (.split sid o p (some a) (some b) ac)
      | some a, none => some a
      | none, some b => some b
      | none, none => none := by
  cases c1 with
  | none =>
      cases c2 with
      | none => rfl
      | some b => cases b <;> rfl
  | some a =>
      cases a <;> cases c2 with
      | none => rfl
      | some b => cases b <;> rfl

theorem collapse_full (n : Node) :
    ∀ u, collapse_split_recursive n = some u → fullNode u = true := by
  induction n using node_ind with
  | hterm i f =>
      intro u h
      simp [collapse_split_recursive] at h
      simp [← h, fullNode]
  | hsplit sid o p c1 c2 ac ih1 ih2 =>
      intro u h
      rw [collapse_eq] at h
      have h1 : ∀ a, collapseOptChild c1 = some a → fullNode a = true := by
        intro a ha
        cases c1 with
        | none => simp [collapseOptChild] at ha
        | some x => exact ih1 x rfl a ha
      have h2 : ∀ b, collapseOptChild c2 = some b → fullNode b = true := by
        intro b hb
        cases c2 with
        | none => simp [collapseOptChild] at hb
        | some y => exact ih2 y rfl b hb
      cases ha : collapseOptChild c1 with
      | none =>
          cases hb : collapseOptChild c2 with
          | none => simp [ha, hb] at h
          | some b =>
              simp [ha, hb] at h
              exact h ▸ h2 b hb
      | some a =>
          cases hb : collapseOptChild c2 with
          | none =>
              simp [ha, hb] at h
              exact h ▸ h1 a ha
          | some b =>
              simp [ha, hb] at h
              rw [← h]
              simp [fullNode, h1 a ha, h2 b hb]

theorem collapse_id (n : Node) (h : fullNode n = true) :
    collapse_split_recursive n = some n := by
  induction n using node_ind with
  | hterm i f => rfl
  | hsplit sid o p c1 c2 ac ih1 ih2 =>
      cases c1 with
      | none => cases c2 <;> simp [fullNode] at h
      | some a =>
          cases c2 with
          | none => simp [fullNode] at h
          | some b =>
              simp only [fullNode, Bool.and_eq_true] at h
              rw [collapse_eq]
              simp [collapseOptChild, ih1 a rfl h.1, ih2 b rfl h.2]

theorem collapse_wids_sublist (n : Node) :
    ∀ u, collapse_split_recursive n = some u →
      (nodeWids u).Sublist (nodeWids n) := by
  induction n using node_ind with
  | hterm i f =>
      intro u h
      simp [collapse_split_recursive] at h
      simp [← h]
  | hsplit sid o p c1 c2 ac ih1 ih2 =>
      intro u h
      rw [collapse_eq] at h
      cases c1 with
      | none =>
          cases c2 with
          | none => simp [collapseOptChild] at h
          | some y =>
              simp only [collapseOptChild] at h
              cases hb : collapse_split_recursive y with
              | none => rw [hb] at h; simp at h
              | some b =>
                  rw [hb] at h
                  simp at h
                  subst h
                  refine (ih2 y rfl b hb).trans ?_
                  simp only [nodeWids, List.nil_append]
                  exact List.sublist_cons_self sid (nodeWids y)
      | some x =>
          cases c2 with
          | none =>
              simp only [collapseOptChild] at h
              cases ha : collapse_split_recursive x with
              | none => rw [ha] at h; simp at h
              | some a =>
                  rw [ha] at h
                  simp at h
                  subst h
                  refine (ih1 x rfl a ha).trans ?_
                  simp only [nodeWids, List.append_nil]
                  exact List.sublist_cons_self sid (nodeWids x)
          | some y =>
              simp only [collapseOptChild] at h
              cases ha : collapse_split_recursive x with
              | none =>
                  cases hb : collapse_split_recursive y with
                  | none => rw [ha, hb] at h; simp at h
                  | some b =>
                      rw [ha, hb] at h
                      simp at h
                      subst h
                      refine (ih2 y rfl b hb).trans ?_
                      simp only [nodeWids]
                      exact (List.sublist_append_right _ _).trans
                        (List.sublist_cons_self sid _)
              | some a =>
                  cases hb : collapse_split_recursive y with
                  | none =>
                      rw [ha, hb] at h
                      simp at h
                      subst h
                      refine (ih1 x rfl a ha).trans ?_
                      simp only [nodeWids]
                      exact (List.sublist_append_left _ _).trans
                        (List.sublist_cons_self sid _)
                  | some b =>
                      rw [ha, hb] at h
                      simp at h
                      subst h
                      simp only [nodeWids]
                      exact List.Sublist.cons₂ sid
                        (List.Sublist.append (ih1 x rfl a ha) (ih2 y rfl b hb))

/-! ## The container invariant -/

/-- The inductive invariant of a live container.  `Inv.1`: outside the
window between an unexpected terminal destruction and the deferred
collapse, the tree is fully populated.  `Inv.2.1`: the active terminal is
absent exactly when the content is absent.  `Inv.2.2.1`: outside the
deferred-collapse window the active terminal is a terminal of the tree.
`Inv.2.2.2.1`: during the window the content is a split.  `Inv.2.2.2.2`:
widget ids are pairwise distinct (JS object identities) and below the
allocation counter. -/
def Inv (s : Container) : Prop :=
  (s.collapsePending = false → fullOpt s.content = true) ∧
  (s.activeTerminal = none ↔ s.content = none) ∧
  (s.collapsePending = false →
    ∀ a n, s.activeTerminal = some a → s.content = some n →
      a ∈ get_all_terminals n) ∧
  (s.collapsePending = true →
    ∃ sid o p c1 c2 ac, s.content = some (.split sid o p c1 c2 ac)) ∧
  (∀ n, s.content = some n →
    (nodeWids n).Nodup ∧ ∀ w ∈ nodeWids n, w < s.nextId)

theorem inv_new : Inv newContainer := by
  refine ⟨fun _ => rfl, by simp [newContainer], ?_, ?_, ?_⟩
  · intro _ a n _ hn
    simp [newContainer] at hn
  · intro hp
    simp [newContainer] at hp
  · intro n hn
    simp [newContainer] at hn

theorem inv_set_terminal (c : Container) (f : List (String × Val))
    (hinv : Inv c) (hp : c.collapsePending = false) :
    Inv (set_terminal c f) := by
  refine ⟨?_, ?_, ?_, ?_, ?_⟩
  · intro _
    simp [set_terminal, fullOpt, fullNode]
  · simp [set_terminal]
  · intro _ a n ha hn
    simp only [set_terminal, Option.some.injEq] at ha hn
    subst ha
    rw [← hn]
    simp [get_all_terminals]
  · intro hpend
    simp only [set_terminal] at hpend
    exact absurd hpend (by simp [hp])
  · intro n hn
    simp only [set_terminal, Option.some.injEq] at hn
    rw [← hn]
    simp only [nodeWids]
    exact ⟨List.nodup_singleton _, by simp [set_terminal]⟩

theorem nodup_assemble (k m e : Nat) (w1 w2 : List Nat)
    (hkm : k < m)
    (hb1 : ∀ w ∈ w1, k + 1 ≤ w ∧ w < m)
    (hb2 : ∀ w ∈ w2, m ≤ w ∧ w < e)
    (hn1 : w1.Nodup) (hn2 : w2.Nodup) :
    (k :: (w1 ++ w2)).Nodup := by
  refine List.nodup_cons.mpr ⟨?_, List.nodup_append.mpr ⟨hn1, hn2, ?_⟩⟩
  · intro h
    rcases List.mem_append.mp h with h | h
    · have := hb1 _ h
      omega
    · have := hb2 _ h
      omega
  · intro x hx hx2
    have := hb1 _ hx
    have := hb2 _ hx2
    omega

/-- Deserialization allocates widget ids strictly increasingly: the
counter never decreases, every widget of the resulting tree has an id in
the consumed range, and ids are pairwise distinct. -/
theorem deser_bounds : ∀ (sz : Nat) (fields : List (String × Val)),
    sizeOf fields ≤ sz → ∀ (k : Nat),
    (k ≤ (deserialize_node fields k).2 ∧
      ∀ n, (deserialize_node fields k).1 = some n →
        ((nodeWids n).Nodup ∧
          ∀ w ∈ nodeWids n, k ≤ w ∧ w < (deserialize_node fields k).2)) ∧
    (k ≤ (deserialize_state fields k).2 ∧
      ∀ n, (deserialize_state fields k).1 = some n →
        ((nodeWids n).Nodup ∧
          ∀ w ∈ nodeWids n, k ≤ w ∧ w < (deserialize_state fields k).2)) := by
  intro sz
  induction sz with
  | zero =>
      intro fields hsz
      exfalso
      cases fields with
      | nil => simp at hsz
      | cons a l => simp at hsz
  | succ sz ih =>
      intro fields hsz k
      have hstate : k ≤ (deserialize_state fields k).2 ∧
          ∀ n, (deserialize_state fields k).1 = some n →
            ((nodeWids n).Nodup ∧
              ∀ w ∈ nodeWids n, k ≤ w ∧ w < (deserialize_state fields k).2) := by
        rw [deserialize_state]
        by_cases ht : lookupStr fields "type" = some "split"
        · rw [if_pos ht]
          have hfst : ∀ (r1 : Option Node × Nat),
              (k + 1 ≤ r1.2 ∧
                ∀ n, r1.1 = some n →
                  ((nodeWids n).Nodup ∧
                    ∀ w ∈ nodeWids n, k + 1 ≤ w ∧ w < r1.2)) →
              ∀ (r2 : Option Node × Nat),
              (r1.2 ≤ r2.2 ∧
                ∀ n, r2.1 = some n →
                  ((nodeWids n).Nodup ∧
                    ∀ w ∈ nodeWids n, r1.2 ≤ w ∧ w < r2.2)) →
              k ≤ r2.2 ∧
              ∀ n, some (Node.split k ((lookupInt fields "orientation").getD 0)
                  ((lookupRat fields "split-position").getD (1/2))
                  r1.1 r2.1 none) = some n →
                ((nodeWids n).Nodup ∧
                  ∀ w ∈ nodeWids n, k ≤ w ∧ w < r2.2) := by
            intro r1 ⟨h1le, h1f⟩ r2 ⟨h2le, h2f⟩
            refine ⟨by omega, ?_⟩
            intro n hn
            simp only [Option.some.injEq] at hn
            rw [← hn, nodeWids_split]
            have hw1 : ∀ w ∈ widsO r1.1, k + 1 ≤ w ∧ w < r1.2 := by
              intro w hw
              cases hr1 : r1.1 with
              | none => rw [hr1] at hw; simp [widsO] at hw
              | some n1 =>
                  rw [hr1] at hw
                  exact (h1f n1 hr1).2 w (by simpa [widsO] using hw)
            have hw2 : ∀ w ∈ widsO r2.1, r1.2 ≤ w ∧ w < r2.2 := by
              intro w hw
              cases hr2 : r2.1 with
              | none => rw [hr2] at hw; simp [widsO] at hw
              | some n2 =>
                  rw [hr2] at hw
                  exact (h2f n2 hr2).2 w (by simpa [widsO] using hw)
            have hn1 : (widsO r1.1).Nodup := by
              cases hr1 : r1.1 with
              | none => simp [widsO]
              | some n1 => simpa [widsO] using (h1f n1 hr1).1
            have hn2 : (widsO r2.1).Nodup := by
              cases hr2 : r2.1 with
              | none => simp [widsO]
              | some n2 => simpa [widsO] using (h2f n2 hr2).1
            refine ⟨nodup_assemble k r1.2 r2.2 _ _ (by omega) hw1 hw2 hn1 hn2,
                    ?_⟩
            intro w hw
            simp only [List.mem_cons, List.mem_append] at hw
            rcases hw with rfl | hw | hw
            · omega
            · have := hw1 w hw
              omega
            · have := hw2 w hw
              omega
          cases hl1 : lookupDict fields "first" with
          | some fv =>
              have hszf : sizeOf fv ≤ sz := by
                have := lookupDict_sizeOf hl1
                omega
              have ihf := (ih fv hszf (k + 1)).1
              cases hl2 : lookupDict fields "second" with
              | some sv =>
                  have hszs : sizeOf sv ≤ sz := by
                    have := lookupDict_sizeOf hl2
                    omega
                  have ihs := (ih sv hszs
                    (deserialize_node fv (k + 1)).2).1
                  simpa using
                    hfst (deserialize_node fv (k + 1))
                      ⟨by have := ihf.1; omega, ihf.2⟩
                      (deserialize_node sv (deserialize_node fv (k + 1)).2)
                      ⟨ihs.1, ihs.2⟩
              | none =>
                  simpa using
                    hfst (deserialize_node fv (k + 1))
                      ⟨by have := ihf.1; omega, ihf.2⟩
                      ((none : Option Node), (deserialize_node fv (k + 1)).2)
                      ⟨le_refl _, by intro n hn; simp at hn⟩
          | none =>
              cases hl2 : lookupDict fields "second" with
              | some sv =>
                  have hszs : sizeOf sv ≤ sz := by
                    have := lookupDict_sizeOf hl2
                    omega
                  have ihs := (ih sv hszs (k + 1)).1
                  simpa using
                    hfst ((none : Option Node), k + 1)
                      ⟨le_refl _, by intro n hn; simp at hn⟩
                      (deserialize_node sv (k + 1))
                      ⟨ihs.1, ihs.2⟩
              | none =>
                  simpa using
                    hfst ((none : Option Node), k + 1)
                      ⟨le_refl _, by intro n hn; simp at hn⟩
                      ((none : Option Node), k + 1)
                      ⟨le_refl _, by intro n hn; simp at hn⟩
        · rw [if_neg ht]
          exact ⟨le_refl _, by intro n hn; simp at hn⟩
      refine ⟨?_, hstate⟩
      cases hty : lookupStr fields "type" with
      | none =>
          have heq : deserialize_node fields k = (none, k) := by
            simp [deserialize_node, hty]
          rw [heq]
          exact ⟨le_refl _, by intro n hn; simp at hn⟩
      | some t =>
          have heq : deserialize_node fields k =
              (if t = "terminal" then (some (.term k fields), k + 1)
               else if t = "split" then deserialize_state fields k
               else (none, k)) := by
            simp [deserialize_node, hty]
          rw [heq]
          by_cases hterm : t = "terminal"
          · rw [if_pos hterm]
            refine ⟨by omega, ?_⟩
            intro n hn
            simp only [Option.some.injEq] at hn
            rw [← hn]
            simp only [nodeWids]
            exact ⟨List.nodup_singleton _, by
              intro w hw
              simp at hw
              omega⟩
          · rw [if_neg hterm]
            by_cases hsplit : t = "split"
            · rw [if_pos hsplit]
              exact hstate
            · rw [if_neg hsplit]
              exact ⟨le_refl _, by intro n hn; simp at hn⟩

/-- Deserialization of one optional child record
(`first_data ? _deserialize_node(first_data, ...) : nothing`). -/
def deserChild : Option (List (String × Val)) → Nat → Option Node × Nat
  | some fv, k => deserialize_node fv k
  | none, k => (none, k)

/-- The split deserializer, written with the child-record plumbing
factored out (the dependent matches of the definition erase to this). -/
theorem deserialize_state_eq (fields : List (String × Val)) (k : Nat) :
    deserialize_state fields k =
      (if lookupStr fields "type" = some "split" then
        (some (.split k ((lookupInt fields "orientation").getD 0)
          ((lookupRat fields "split-position").getD (1/2))
          (deserChild (lookupDict fields "first") (k + 1)).1
          (deserChild (lookupDict fields "second")
            (deserChild (lookupDict fields "first") (k + 1)).2).1 none),
         (deserChild (lookupDict fields "second")
           (deserChild (lookupDict fields "first") (k + 1)).2).2)
      else (none, k)) := by
  rw [deserialize_state]
  by_cases ht : lookupStr fields "type" = some "split"
  · rw [if_pos ht, if_pos ht]
    cases lookupDict fields "first" <;> cases lookupDict fields "second" <;>
      rfl
  · rw [if_neg ht, if_neg ht]

/-- Deserializing a well-formed node record always succeeds and yields a
fully populated tree. -/
theorem deser_wf : ∀ (sz : Nat) (fields : List (String × Val)),
    sizeOf fields ≤ sz → nodeRecWF fields = true → ∀ (k : Nat),
    (∃ n, (deserialize_node fields k).1 = some n ∧ fullNode n = true) ∧
    (lookupStr fields "type" = some "split" →
      ∃ n, (deserialize_state fields k).1 = some n ∧ fullNode n = true) := by
  intro sz
  induction sz with
  | zero =>
      intro fields hsz
      exfalso
      cases fields with
      | nil => simp at hsz
      | cons a l => simp at hsz
  | succ sz ih =>
      intro fields hsz hwf k
      cases hty : lookupStr fields "type" with
      | none => rw [nodeRecWF, hty] at hwf; simp at hwf
      | some t =>
          by_cases hterm : t = "terminal"
          · subst hterm
            have heq : deserialize_node fields k =
                (some (.term k fields), k + 1) := by
              simp [deserialize_node, hty]
            refine ⟨⟨.term k fields, by rw [heq], rfl⟩, ?_⟩
            intro hsp
            exact absurd hsp (by simp)
          · by_cases hsplitt : t = "split"
            · subst hsplitt
              rw [nodeRecWF, hty] at hwf
              simp only [String.reduceEq, if_false, if_pos rfl] at hwf
              cases hl1 : lookupDict fields "first" with
              | none => rw [hl1] at hwf; simp at hwf
              | some fv =>
                  cases hl2 : lookupDict fields "second" with
                  | none => rw [hl1, hl2] at hwf; simp at hwf
                  | some sv =>
                      rw [hl1, hl2] at hwf
                      simp only [if_true, Bool.and_eq_true] at hwf
                      have hszf : sizeOf fv ≤ sz := by
                        have := lookupDict_sizeOf hl1
                        omega
                      have hszs : sizeOf sv ≤ sz := by
                        have := lookupDict_sizeOf hl2
                        omega
                      obtain ⟨n1, hn1, hf1⟩ :=
                        (ih fv hszf hwf.1 (k + 1)).1
                      obtain ⟨n2, hn2, hf2⟩ :=
                        (ih sv hszs hwf.2
                          (deserialize_node fv (k + 1)).2).1
                      have heq : (deserialize_state fields k).1 =
                          some (.split k
                            ((lookupInt fields "orientation").getD 0)
                            ((lookupRat fields "split-position").getD (1/2))
                            (deserialize_node fv (k + 1)).1
                            (deserialize_node sv
                              (deserialize_node fv (k + 1)).2).1 none) := by
                        rw [deserialize_state_eq, if_pos hty, hl1, hl2]
                        simp [deserChild]
                      have hfull : fullNode (.split k
                          ((lookupInt fields "orientation").getD 0)
                          ((lookupRat fields "split-position").getD (1/2))
                          (deserialize_node fv (k + 1)).1
                          (deserialize_node sv
                            (deserialize_node fv (k + 1)).2).1 none) = true := by
                        rw [hn1, hn2, fullNode_split]
                        simp [fullO_some, hf1, hf2]
                      have hnode : deserialize_node fields k =
                          deserialize_state fields k := by
                        simp [deserialize_node, hty]
                      exact ⟨⟨_, by rw [hnode, heq], hfull⟩,
                             fun _ => ⟨_, heq, hfull⟩⟩
            · rw [nodeRecWF, hty] at hwf
              simp only [if_neg hterm, if_neg hsplitt] at hwf
              simp at hwf

/-- A successful `SplitContainer.deserialize_state` result is a split
whose id is the counter value at entry and whose `_active_child` is null
(a fresh `SplitContainer` tracks no focus yet). -/
theorem deserialize_state_shape (fields : List (String × Val)) (k : Nat) :
    ∀ s, (deserialize_state fields k).1 = some s →
      ∃ o p c1 c2, s = .split k o p c1 c2 none := by
  intro s hs
  rw [deserialize_state_eq] at hs
  by_cases ht : lookupStr fields "type" = some "split"
  · rw [if_pos ht] at hs
    simp only [Option.some.injEq] at hs
    exact ⟨_, _, _, _, hs.symm⟩
  · rw [if_neg ht] at hs
    exact absurd hs (by simp)

/-- A container state whose active terminal was just re-derived from a
fully populated, well-identified tree satisfies the invariant. -/
theorem inv_mk (s : Container) (tree : Node) (t : Nat)
    (hcontent : s.content = some tree)
    (hactive : s.activeTerminal = some t)
    (hpend : s.collapsePending = false)
    (hmem : t ∈ get_all_terminals tree)
    (hfull : fullNode tree = true)
    (hnd : (nodeWids tree).Nodup)
    (hbd : ∀ w ∈ nodeWids tree, w < s.nextId) : Inv s := by
  refine ⟨?_, ?_, ?_, ?_, ?_⟩
  · intro _
    simp [hcontent, fullOpt, hfull]
  · simp [hcontent, hactive]
  · intro _ a n ha hn
    rw [hactive] at ha
    rw [hcontent] at hn
    simp only [Option.some.injEq] at ha hn
    subst ha
    rw [← hn]
    exact hmem
  · intro hpend'
    rw [hpend] at hpend'
    exact absurd hpend' (by simp)
  · intro n hn
    rw [hcontent] at hn
    simp only [Option.some.injEq] at hn
    rw [← hn]
    exact ⟨hnd, hbd⟩

/-- Allocating fresh widgets without touching the tree preserves the
invariant. -/
theorem inv_bump (c : Container) (hinv : Inv c) (k : Nat) :
    Inv { c with nextId := c.nextId + k } := by
  obtain ⟨hA, hB, hC, hD, hW⟩ := hinv
  refine ⟨hA, hB, hC, hD, ?_⟩
  intro n hn
  obtain ⟨hnd, hbd⟩ := hW n hn
  refine ⟨hnd, fun w hw => ?_⟩
  have := hbd w hw
  simp only
  omega

theorem inv_splitOp (c : Container) (tid : Nat) (o : Int)
    (hinv : Inv c) (hp : c.collapsePending = false) :
    Inv (splitOp c tid o) := by
  obtain ⟨hA, hB, hC, hD, hW⟩ := hinv
  cases hc : c.content with
  | none =>
      have hop : splitOp c tid o = { c with nextId := c.nextId + 2 } := by
        simp [splitOp, hc]
      rw [hop]
      exact inv_bump c ⟨hA, hB, hC, hD, hW⟩ 2
  | some root =>
      cases root with
      | term i f =>
          by_cases hi : i = tid
          · have hibd : i < c.nextId := by
              have := (hW _ hc).2 i (by simp [nodeWids])
              exact this
            have hop : splitOp c tid o =
                { c with
                  content := some (grabFocusTerm c.nextId
                    (.split (c.nextId + 1) o (1/2) (some (.term i f))
                      (some (.term c.nextId [])) none))
                  activeTerminal := containerActive
                    (some (grabFocusTerm c.nextId
                      (.split (c.nextId + 1) o (1/2) (some (.term i f))
                        (some (.term c.nextId [])) none)))
                  nextId := c.nextId + 2 } := by
              simp [splitOp, hc, hi]
            have hnd0 : (nodeWids (Node.split (c.nextId + 1) o (1/2)
                (some (.term i f)) (some (.term c.nextId [])) none)).Nodup := by
              simp only [nodeWids_split, widsO_some, nodeWids_term]
              simp only [List.cons_append, List.nil_append]
              refine List.nodup_cons.mpr ⟨?_, ?_⟩
              · simp
                omega
              · refine List.nodup_cons.mpr ⟨?_, List.nodup_singleton _⟩
                simp
                omega
            have hcont : contains_terminal c.nextId
                (Node.split (c.nextId + 1) o (1/2) (some (.term i f))
                  (some (.term c.nextId [])) none) = true := by
              simp [contains_terminal]
            have hact := active_grabFocus c.nextId _ hnd0 hcont
            rw [hop]
            refine inv_mk _ (grabFocusTerm c.nextId
              (.split (c.nextId + 1) o (1/2) (some (.term i f))
                (some (.term c.nextId [])) none)) c.nextId rfl
              ?_ ?_ ?_ ?_ ?_ ?_
            · simpa [containerActive_some] using hact
            · simpa using hp
            · rw [grabFocus_terminals]
              simp [terminals_split, termsO_some, terminals_term]
            · rw [grabFocus_full]
              simp [fullNode_split, fullO_some, fullNode_term]
            · rw [grabFocus_wids]
              exact hnd0
            · intro w hw
              rw [grabFocus_wids] at hw
              have hw' : w = c.nextId + 1 ∨ w = i ∨ w = c.nextId := by
                simpa [nodeWids_split, widsO_some, nodeWids_term] using hw
              show w < c.nextId + 2
              rcases hw' with rfl | rfl | rfl <;> omega
          · have hop : splitOp c tid o = { c with nextId := c.nextId + 2 } := by
              simp [splitOp, hc, hi]
            rw [hop]
            exact inv_bump c ⟨hA, hB, hC, hD, hW⟩ 2
      | split s0 o0 p0 d1 d2 a0 =>
          cases hg : graft_split tid c.nextId (c.nextId + 1) o
              (.split s0 o0 p0 d1 d2 a0) with
          | none =>
              have hop : splitOp c tid o =
                  { c with nextId := c.nextId + 2 } := by
                simp [splitOp, hc, hg]
              rw [hop]
              exact inv_bump c ⟨hA, hB, hC, hD, hW⟩ 2
          | some tree0 =>
              have hop : splitOp c tid o =
                  { c with
                    content := some (grabFocusTerm c.nextId tree0)
                    activeTerminal := containerActive
                      (some (grabFocusTerm c.nextId tree0))
                    nextId := c.nextId + 2 } := by
                simp [splitOp, hc, hg]
              obtain ⟨hnd, hbd⟩ := hW _ hc
              have hperm := graft_wids tid c.nextId (c.nextId + 1) o _ _ hg
              have htperm := graft_terminals tid c.nextId (c.nextId + 1) o _ _ hg
              have hnd0 : (nodeWids tree0).Nodup := by
                refine hperm.symm.nodup ?_
                refine List.nodup_cons.mpr ⟨?_, List.nodup_cons.mpr ⟨?_, hnd⟩⟩
                · simp only [List.mem_cons]
                  rintro (h | h)
                  · omega
                  · have := hbd _ h
                    omega
                · intro h
                  have := hbd _ h
                  omega
              have hmem0 : c.nextId ∈ get_all_terminals tree0 := by
                rw [htperm.mem_iff]
                simp
              have hcont : contains_terminal c.nextId tree0 = true :=
                (contains_iff_mem _ _).mpr hmem0
              have hact := active_grabFocus c.nextId tree0 hnd0 hcont
              have hfull0 : fullNode tree0 = true := by
                refine graft_full tid c.nextId (c.nextId + 1) o _ _ hg ?_
                have := hA hp
                rw [hc] at this
                simpa [fullOpt] using this
              rw [hop]
              refine inv_mk _ (grabFocusTerm c.nextId tree0) c.nextId rfl
                ?_ ?_ ?_ ?_ ?_ ?_
              · simpa [containerActive_some] using hact
              · simpa using hp
              · rw [grabFocus_terminals]
                exact hmem0
              · rw [grabFocus_full]
                exact hfull0
              · rw [grabFocus_wids]
                exact hnd0
              · intro w hw
                rw [grabFocus_wids] at hw
                rw [hperm.mem_iff] at hw
                simp only [List.mem_cons] at hw
                simp only
                rcases hw with rfl | rfl | h
                · omega
                · omega
                · have := hbd _ h
                  omega

/-- Shared core for all operations ending with a `grab_focus` on a node
(`result.grab_focus()` in `_collapse_empty_splits`, `active.grab_focus()`
in `unsplit`, `sibling.grab_focus()` in `collapse_terminal`): grabbing and
re-deriving from a fully populated, well-identified tree gives a valid
state. -/
theorem inv_grab_node (s : Container) (tree0 : Node)
    (hcontent : s.content = some (grabFocusNode tree0))
    (hactive : s.activeTerminal = containerActive (some (grabFocusNode tree0)))
    (hpend : s.collapsePending = false)
    (hfull : fullNode tree0 = true)
    (hnd : (nodeWids tree0).Nodup)
    (hbd : ∀ w ∈ nodeWids tree0, w < s.nextId) : Inv s := by
  obtain ⟨t, hdfs, hmem⟩ := full_dfsFirst tree0 hfull
  have hgrab : grabFocusNode tree0 = grabFocusTerm t tree0 := by
    simp [grabFocusNode, hdfs]
  have hcont : contains_terminal t tree0 = true :=
    (contains_iff_mem _ _).mpr hmem
  have hact : containerActive (some (grabFocusNode tree0)) = some t := by
    rw [hgrab, containerActive_some]
    exact active_grabFocus t tree0 hnd hcont
  refine inv_mk s (grabFocusNode tree0) t hcontent (hact ▸ hactive) hpend
    ?_ ?_ ?_ ?_
  · rw [hgrab, grabFocus_terminals]
    exact hmem
  · rw [hgrab, grabFocus_full]
    exact hfull
  · rw [hgrab, grabFocus_wids]
    exact hnd
  · rw [hgrab, grabFocus_wids]
    exact hbd

theorem inv_unsplit (c : Container) (r : Container × List Nat)
    (hinv : Inv c) (hp : c.collapsePending = false)
    (hop : unsplitOp c = some r) : Inv r.1 := by
  obtain ⟨hA, hB, hC, hD, hW⟩ := hinv
  cases hc : c.content with
  | none =>
      rw [unsplitOp, hc] at hop
      simp only [Option.some.injEq] at hop
      rw [← hop]
      exact ⟨hA, hB, hC, hD, hW⟩
  | some root =>
      cases root with
      | term i f =>
          rw [unsplitOp, hc] at hop
          simp only [Option.some.injEq] at hop
          rw [← hop]
          exact ⟨hA, hB, hC, hD, hW⟩
      | split s0 o0 p0 d1 d2 a0 =>
          cases hact : c.activeTerminal with
          | none => simp [unsplitOp, hc, hact] at hop
          | some a =>
              cases hfind : findNodeByWid a (.split s0 o0 p0 d1 d2 a0) with
              | none => simp [unsplitOp, hc, hact, hfind] at hop
              | some tnode =>
                  simp only [unsplitOp, hc, hact, hfind,
                    Option.some.injEq] at hop
                  obtain ⟨hsub, hfull, _, _⟩ := findNode_facts a _ _ hfind
                  obtain ⟨hnd, hbd⟩ := hW _ hc
                  have hfull0 : fullNode tnode = true := by
                    refine hfull ?_
                    have := hA hp
                    rw [hc] at this
                    simpa [fullOpt] using this
                  refine inv_grab_node r.1 tnode ?_ ?_ ?_ hfull0
                    (hnd.sublist hsub) ?_
                  · rw [← hop]
                  · rw [← hop]
                  · rw [← hop]
                    simpa using hp
                  · intro w hw
                    rw [← hop]
                    exact hbd w (hsub.mem hw)

theorem inv_collapse_terminal (c : Container) (tid : Nat)
    (hinv : Inv c) (hp : c.collapsePending = false) :
    Inv (collapse_terminal c tid) := by
  obtain ⟨hA, hB, hC, hD, hW⟩ := hinv
  cases hc : c.content with
  | none =>
      have : collapse_terminal c tid = c := by
        simp [collapse_terminal, hc]
      rw [this]
      exact ⟨hA, hB, hC, hD, hW⟩
  | some root =>
      cases root with
      | term i f =>
          have : collapse_terminal c tid = c := by
            simp [collapse_terminal, hc]
          rw [this]
          exact ⟨hA, hB, hC, hD, hW⟩
      | split s0 o0 p0 d1 d2 a0 =>
          cases hpr : promote_sibling tid (.split s0 o0 p0 d1 d2 a0) with
          | notFound =>
              have : collapse_terminal c tid = c := by
                simp [collapse_terminal, hc, hpr]
              rw [this]
              exact ⟨hA, hB, hC, hD, hW⟩
          | noSibling =>
              have : collapse_terminal c tid = c := by
                simp [collapse_terminal, hc, hpr]
              rw [this]
              exact ⟨hA, hB, hC, hD, hW⟩
          | done tree0 sib =>
              obtain ⟨hnd, hbd⟩ := hW _ hc
              have hfullroot : fullNode (.split s0 o0 p0 d1 d2 a0) = true := by
                have := hA hp
                rw [hc] at this
                simpa [fullOpt] using this
              obtain ⟨hfull0, hfullsib⟩ :=
                promote_full tid _ _ _ hpr hfullroot
              have hsub := promote_wids tid _ _ _ hpr
              obtain ⟨t, hdfs, htmem⟩ := full_dfsFirst sib hfullsib
              have htmem0 : t ∈ get_all_terminals tree0 :=
                promote_sib_terms tid _ _ _ hpr t htmem
              have hcont : contains_terminal t tree0 = true :=
                (contains_iff_mem _ _).mpr htmem0
              have hnd0 : (nodeWids tree0).Nodup := hnd.sublist hsub
              have hop : collapse_terminal c tid =
                  { c with
                    content := some (grabFocusTerm t tree0)
                    activeTerminal := containerActive
                      (some (grabFocusTerm t tree0)) } := by
                simp [collapse_terminal, hc, hpr, hdfs]
              rw [hop]
              refine inv_mk _ (grabFocusTerm t tree0) t rfl ?_ ?_ ?_ ?_ ?_ ?_
              · show containerActive _ = some t
                rw [containerActive_some]
                exact active_grabFocus t tree0 hnd0 hcont
              · simpa using hp
              · rw [grabFocus_terminals]
                exact htmem0
              · rw [grabFocus_full]
                exact hfull0
              · rw [grabFocus_wids]
                exact hnd0
              · intro w hw
                rw [grabFocus_wids] at hw
                exact hbd w (hsub.mem hw)

theorem inv_close_active (c : Container)
    (hinv : Inv c) (hp : c.collapsePending = false) :
    Inv (close_active_terminal c).1 := by
  rw [close_active_terminal]
  by_cases hs : is_split c
  · rw [if_pos hs]
    cases hact : c.activeTerminal with
    | none => exact hinv
    | some a => exact inv_collapse_terminal c a hinv hp
  · rw [if_neg hs]
    exact hinv

theorem inv_terminal_destroyed (c : Container) (tid : Nat)
    (hinv : Inv c) : Inv (terminalDestroyed c tid) := by
  obtain ⟨hA, hB, hC, hD, hW⟩ := hinv
  cases hc : c.content with
  | none =>
      have : terminalDestroyed c tid = c := by
        simp [terminalDestroyed, hc]
      rw [this]
      exact ⟨hA, hB, hC, hD, hW⟩
  | some root =>
      cases root with
      | term i f =>
          have hop : terminalDestroyed c tid =
              { c with content := none, activeTerminal := none
                       destroyed := true } := by
            simp [terminalDestroyed, hc]
          have hpf : c.collapsePending = false := by
            cases hpc : c.collapsePending with
            | false => rfl
            | true =>
                obtain ⟨sid, o, p, c1, c2, ac, hsp⟩ := hD hpc
                rw [hc] at hsp
                exact absurd hsp (by simp)
          rw [hop]
          refine ⟨fun _ => rfl, by simp, ?_, ?_, ?_⟩
          · intro _ a n _ hn
            simp at hn
          · intro hpend
            simp only at hpend
            rw [hpf] at hpend
            exact absurd hpend (by simp)
          · intro n hn
            simp at hn
      | split s0 o0 p0 d1 d2 a0 =>
          have hop : terminalDestroyed c tid =
              { c with
                content := some (removeTermNode tid (.split s0 o0 p0 d1 d2 a0))
                collapsePending := true } := by
            simp [terminalDestroyed, hc]
          rw [hop]
          refine ⟨?_, ?_, ?_, ?_, ?_⟩
          · intro hpend
            exact absurd hpend (by simp)
          · have hsome : c.activeTerminal ≠ none := by
              intro hnone
              rw [hB.mp hnone] at hc
              exact absurd hc (by simp)
            simpa using hsome
          · intro hpend
            exact absurd hpend (by simp)
          · intro _
            exact ⟨s0, o0, p0, removeSlot tid d1, removeSlot tid d2, a0,
              by simp [removeTermNode_eq]⟩
          · intro n hn
            simp only [Option.some.injEq] at hn
            obtain ⟨hnd, hbd⟩ := hW _ hc
            have hsub := removeTerm_wids tid (.split s0 o0 p0 d1 d2 a0)
            rw [← hn]
            exact ⟨hnd.sublist hsub, fun w hw => hbd w (hsub.mem hw)⟩

theorem inv_collapse_empty (c : Container)
    (hinv : Inv c) (hp : c.collapsePending = true) :
    Inv (collapseEmptySplits c) := by
  obtain ⟨hA, hB, hC, hD, hW⟩ := hinv
  obtain ⟨s0, o0, p0, c1, c2, ac, hc⟩ := hD hp
  cases hcol : collapse_split_recursive (.split s0 o0 p0 c1 c2 ac) with
  | none =>
      have hop : collapseEmptySplits c =
          { c with content := none, activeTerminal := none
                   destroyed := true, collapsePending := false } := by
        simp [collapseEmptySplits, hc, hcol]
      rw [hop]
      refine ⟨fun _ => rfl, by simp, ?_, ?_, ?_⟩
      · intro _ a n _ hn
        simp at hn
      · intro hpend
        simp at hpend
      · intro n hn
        simp at hn
  | some result =>
      have hop : collapseEmptySplits c =
          { c with
            content := some (grabFocusNode result)
            activeTerminal := containerActive (some (grabFocusNode result))
            collapsePending := false } := by
        simp [collapseEmptySplits, hc, hcol, grabFocusNode]
      obtain ⟨hnd, hbd⟩ := hW _ hc
      have hsub := collapse_wids_sublist _ _ hcol
      rw [hop]
      refine inv_grab_node _ result rfl rfl (by simp)
        (collapse_full _ _ hcol) (hnd.sublist hsub) ?_
      intro w hw
      exact hbd w (hsub.mem hw)

theorem inv_deserialize (fields : List (String × Val))
    (hwf : containerRecWF fields = true) :
    Inv (container_deserialize_state fields) := by
  cases hty : lookupStr fields "type" with
  | none =>
      have heq : container_deserialize_state fields =
          set_terminal newContainer fields := by
        simp [container_deserialize_state, hty]
      rw [heq]
      exact inv_set_terminal _ _ inv_new rfl
  | some t =>
      by_cases hsp : t = "split"
      · subst hsp
        have hnwf : nodeRecWF fields = true := by
          rw [containerRecWF, hty] at hwf
          simpa using hwf
        obtain ⟨s, hs, hfulls⟩ :=
          (deser_wf (sizeOf fields) fields le_rfl hnwf 0).2 hty
        obtain ⟨o, p, c1, c2, hshape⟩ := deserialize_state_shape fields 0 s hs
        rcases hds : deserialize_state fields 0 with ⟨fst, snd⟩
        rw [hds] at hs
        simp only at hs
        subst hs
        have heq : container_deserialize_state fields =
            { content := some s
              activeTerminal := containerActive (some s)
              destroyed := false, collapsePending := false
              nextId := snd } := by
          simp [container_deserialize_state, hty, hds]
        obtain ⟨hnd, hbd⟩ :=
          ((deser_bounds (sizeOf fields) fields le_rfl 0).2).2 s
            (by rw [hds])
        rw [heq]
        subst hshape
        obtain ⟨t0, hact, hmem⟩ := active_acNone_root 0 o p c1 c2 hfulls
        refine inv_mk _ _ t0 rfl ?_ rfl hmem hfulls hnd ?_
        · exact (containerActive_some _).trans hact
        · intro w hw
          have := hbd w hw
          rw [hds] at this
          exact this.2
      · have heq : container_deserialize_state fields =
            set_terminal newContainer fields := by
          simp [container_deserialize_state, hty, hsp]
        rw [heq]
        exact inv_set_terminal _ _ inv_new rfl

theorem inv_focus (c : Container) (tid : Nat)
    (hinv : Inv c) (hp : c.collapsePending = false)
    (hmem : tid ∈ allTerminalsC c) : Inv (focusOp c tid) := by
  obtain ⟨hA, hB, hC, hD, hW⟩ := hinv
  cases hc : c.content with
  | none => simpa [focusOp, hc] using ⟨hA, hB, hC, hD, hW⟩
  | some root =>
      have hmem' : tid ∈ get_all_terminals root := by
        simpa [allTerminalsC, hc] using hmem
      obtain ⟨hnd, hbd⟩ := hW root hc
      have hcontains : contains_terminal tid root = true :=
        (contains_iff_mem tid root).mpr hmem'
      have hactive : containerActive (some (grabFocusTerm tid root)) =
          some tid := by
        rw [containerActive_some]
        exact active_grabFocus tid root hnd hcontains
      refine ⟨?_, ?_, ?_, ?_, ?_⟩
      · intro _
        have := hA hp
        rw [hc] at this
        simpa [focusOp, hc, fullOpt, grabFocus_full] using this
      · simp [focusOp, hc, hactive]
      · intro _ a n ha hn
        simp only [focusOp, hc, hactive, Option.some.injEq] at ha hn
        subst ha
        rw [← hn, grabFocus_terminals]
        exact hmem'
      · intro hpend
        simp only [focusOp, hc] at hpend
        exact absurd hpend (by simp [hp])
      · intro n hn
        simp only [focusOp, hc, Option.some.injEq] at hn
        rw [← hn, grabFocus_wids]
        exact ⟨hnd, by simpa [focusOp, hc] using hbd⟩

theorem inv_adjust (c : Container) (delta : Rat)
    (hinv : Inv c) (hp : c.collapsePending = false) :
    Inv (adjust_split_position c delta) := by
  obtain ⟨hA, hB, hC, hD, hW⟩ := hinv
  cases hc : c.content with
  | none => simpa [adjust_split_position, hc] using ⟨hA, hB, hC, hD, hW⟩
  | some root =>
      cases root with
      | term i f =>
          simpa [adjust_split_position, hc] using ⟨hA, hB, hC, hD, hW⟩
      | split s0 o0 p0 d1 d2 a0 =>
          cases hact : c.activeTerminal with
          | none =>
              simpa [adjust_split_position, hc, hact] using
                ⟨hA, hB, hC, hD, hW⟩
          | some a =>
              obtain ⟨hwids, hterms, hfull⟩ :=
                adjustPos_preserves
                  (match find_parent_split a (.split s0 o0 p0 d1 d2 a0) with
                   | some psid => psid
                   | none => (Node.split s0 o0 p0 d1 d2 a0).wid) delta
                  (.split s0 o0 p0 d1 d2 a0)
              refine ⟨?_, ?_, ?_, ?_, ?_⟩
              · intro _
                have := hA hp
                rw [hc] at this
                simpa [adjust_split_position, hc, hact, fullOpt, hfull]
                  using this
              · simp [adjust_split_position, hc, hact]
              · intro _ a' n ha' hn
                simp only [adjust_split_position, hc, hact,
                  Option.some.injEq] at ha' hn
                subst ha'
                rw [← hn, hterms]
                exact hC hp a _ hact hc
              · intro hpend
                simp only [adjust_split_position, hc, hact] at hpend
                exact absurd hpend (by simp [hp])
              · intro n hn
                simp only [adjust_split_position, hc, hact,
                  Option.some.injEq] at hn
                obtain ⟨hnd, hbd⟩ := hW _ hc
                rw [← hn, hwids]
                exact ⟨hnd, by simpa [adjust_split_position, hc, hact] using hbd⟩

/-! ## Serialization round trip -/

/-- `serialize_state` of the container: nothing when the container holds
nothing (the `get_parent()` detachment check always passes in the model,
where content is attached by construction); a lone terminal via
`_serialize_terminal`; a split subtree via
`SplitContainer.serialize_state`. -/
def container_serialize_state (c : Container) :
    Option (List (String × Val)) :=
  match c.content with
  | none => none
  | some (.term _ f) => some (serialize_terminal_rec f)
  | some (.split sid o p c1 c2 ac) =>
      some (serialize_node (.split sid o p c1 c2 ac))

theorem insertKV_idem (k : String) (v : Val) (l : List (String × Val)) :
    insertKV k v (insertKV k v l) = insertKV k v l := by
  simp only [insertKV, List.filter_cons]
  simp [List.filter_filter]

mutual

/-- Same tree shape: identical orientations, divider positions within the
1e-3 tolerance, and the same terminal records (compared through the
serialized terminal record, since reconstruction rebuilds the terminal
from its record) at the same leaf positions.  Widget identities and focus
bookkeeping are not part of the shape. -/
def SameShape : Node → Node → Prop
  | .term _ f, .term _ g =>
      serialize_terminal_rec f = serialize_terminal_rec g
  | .split _ o p c1 c2 _, .split _ o' p' c1' c2' _ =>
      o = o' ∧ |p - p'| ≤ 1/1000 ∧ SameShapeO c1 c1' ∧ SameShapeO c2 c2'
  | _, _ => False
termination_by n _ => sizeOf n

/-- `SameShape` on optional children. -/
def SameShapeO : Option Node → Option Node → Prop
  | some a, some b => SameShape a b
  | none, none => True
  | _, _ => False
termination_by c _ => sizeOf c

end

theorem SameShape_term (i : Nat) (f : List (String × Val)) (j : Nat)
    (g : List (String × Val)) :
    SameShape (.term i f) (.term j g) ↔
      serialize_terminal_rec f = serialize_terminal_rec g := by
  rw [SameShape]

theorem SameShape_split (s : Nat) (o : Int) (p : Rat)
    (c1 c2 : Option Node) (ac : Option Nat) (s' : Nat) (o' : Int) (p' : Rat)
    (c1' c2' : Option Node) (ac' : Option Nat) :
    SameShape (.split s o p c1 c2 ac) (.split s' o' p' c1' c2' ac') ↔
      (o = o' ∧ |p - p'| ≤ 1/1000 ∧ SameShapeO c1 c1' ∧
        SameShapeO c2 c2') := by
  rw [SameShape]

theorem SameShapeO_some (a b : Node) :
    SameShapeO (some a) (some b) ↔ SameShape a b := by
  rw [SameShapeO]

theorem serialize_node_term (i : Nat) (f : List (String × Val)) :
    serialize_node (.term i f) = serialize_terminal_rec f := rfl

theorem serialize_node_full (sid : Nat) (o : Int) (p : Rat) (a b : Node)
    (ac : Option Nat) :
    serialize_node (.split sid o p (some a) (some b) ac) =
      ("type", Val.vs "split") :: ("orientation", Val.vi o) ::
      ("split-position", Val.vd p) ::
      ("first", Val.vdict (serialize_node a)) ::
      ("second", Val.vdict (serialize_node b)) :: [] := by
  simp [serialize_node]

/-- Round trip at node level: reserializing the record of a fully
populated tree reconstructs a tree of the same shape (the fresh counter
`k` renumbers the widgets). -/
theorem serialize_node_roundtrip :
    ∀ n, fullNode n = true → ∀ k,
      ∃ n', (deserialize_node (serialize_node n) k).1 = some n' ∧
        SameShape n n' := by
  intro n
  induction n using node_ind with
  | hterm i f =>
      intro _ k
      have hty : lookupStr (serialize_terminal_rec f) "type" =
          some "terminal" := by
        simp [serialize_terminal_rec, insertKV, lookupStr, lookupVal]
      have heq : deserialize_node (serialize_terminal_rec f) k =
          (some (.term k (serialize_terminal_rec f)), k + 1) := by
        simp [deserialize_node, hty]
      refine ⟨.term k (serialize_terminal_rec f),
        by rw [serialize_node_term, heq], ?_⟩
      refine (SameShape_term _ _ _ _).mpr ?_
      exact (insertKV_idem "type" (.vs "terminal") f).symm
  | hsplit sid o p c1 c2 ac ih1 ih2 =>
      intro hfull k
      rw [fullNode_split, Bool.and_eq_true] at hfull
      cases c1 with
      | none => simp [fullO] at hfull
      | some a =>
          cases c2 with
          | none => simp [fullO] at hfull
          | some b =>
              have hfa : fullNode a = true := by simpa [fullO] using hfull.1
              have hfb : fullNode b = true := by simpa [fullO] using hfull.2
              rw [serialize_node_full]
              have hty : lookupStr (("type", Val.vs "split") ::
                  ("orientation", Val.vi o) ::
                  ("split-position", Val.vd p) ::
                  ("first", Val.vdict (serialize_node a)) ::
                  ("second", Val.vdict (serialize_node b)) :: [])
                  "type" = some "split" := by
                simp [lookupStr, lookupVal]
              have hor : lookupInt (("type", Val.vs "split") ::
                  ("orientation", Val.vi o) ::
                  ("split-position", Val.vd p) ::
                  ("first", Val.vdict (serialize_node a)) ::
                  ("second", Val.vdict (serialize_node b)) :: [])
                  "orientation" = some o := by
                simp [lookupInt, lookupVal]
              have hpos : lookupRat (("type", Val.vs "split") ::
                  ("orientation", Val.vi o) ::
                  ("split-position", Val.vd p) ::
                  ("first", Val.vdict (serialize_node a)) ::
                  ("second", Val.vdict (serialize_node b)) :: [])
                  "split-position" = some p := by
                simp [lookupRat, lookupVal]
              have hfst : lookupDict (("type", Val.vs "split") ::
                  ("orientation", Val.vi o) ::
                  ("split-position", Val.vd p) ::
                  ("first", Val.vdict (serialize_node a)) ::
                  ("second", Val.vdict (serialize_node b)) :: [])
                  "first" = some (serialize_node a) := by
                simp [lookupDict, lookupVal]
              have hsnd : lookupDict (("type", Val.vs "split") ::
                  ("orientation", Val.vi o) ::
                  ("split-position", Val.vd p) ::
                  ("first", Val.vdict (serialize_node a)) ::
                  ("second", Val.vdict (serialize_node b)) :: [])
                  "second" = some (serialize_node b) := by
                simp [lookupDict, lookupVal]
              have hnode : deserialize_node (("type", Val.vs "split") ::
                  ("orientation", Val.vi o) ::
                  ("split-position", Val.vd p) ::
                  ("first", Val.vdict (serialize_node a)) ::
                  ("second", Val.vdict (serialize_node b)) :: []) k =
                  deserialize_state (("type", Val.vs "split") ::
                  ("orientation", Val.vi o) ::
                  ("split-position", Val.vd p) ::
                  ("first", Val.vdict (serialize_node a)) ::
                  ("second", Val.vdict (serialize_node b)) :: []) k := by
                simp [deserialize_node, hty]
              obtain ⟨a', ha', hsa⟩ := ih1 a rfl hfa (k + 1)
              obtain ⟨b', hb', hsb⟩ := ih2 b rfl hfb
                (deserialize_node (serialize_node a) (k + 1)).2
              refine ⟨.split k o p (some a') (some b') none, ?_, ?_⟩
              · rw [hnode, deserialize_state_eq, if_pos hty, hor, hpos,
                  hfst, hsnd]
                simp only [deserChild, Option.getD_some]
                rw [ha', hb']
              · refine (SameShape_split _ _ _ _ _ _ _ _ _ _ _ _).mpr
                  ⟨rfl, by simp, ?_, ?_⟩
                · exact (SameShapeO_some _ _).mpr hsa
                · exact (SameShapeO_some _ _).mpr hsb

/-! ## Replacement of a node located by widget id (specification side of
`collapse_terminal`: the parent split, wherever it sits, is replaced by
the sibling) -/

/-- Replace the node whose widget id is `w` by `r`. -/
def replaceNodeByWid (w : Nat) (r : Node) : Node → Node
  | .term i f => if i = w then r else .term i f
  | .split sid o p c1 c2 ac =>
      if sid = w then r
      else
        .split sid o p
          (match c1 with
           | some a => some (replaceNodeByWid w r a)
           | none => none)
          (match c2 with
           | some b => some (replaceNodeByWid w r b)
           | none => none)
          ac

/-- The id replacement on one child slot. -/
def replaceSlot (w : Nat) (r : Node) : Option Node → Option Node
  | some a => some (replaceNodeByWid w r a)
  | none => none

theorem replaceNodeByWid_term (w : Nat) (r : Node) (i : Nat)
    (f : List (String × Val)) :
    replaceNodeByWid w r (.term i f) = if i = w then r else .term i f := by
  simp only [replaceNodeByWid]

theorem replaceNodeByWid_split (w : Nat) (r : Node) (sid : Nat) (o : Int)
    (p : Rat) (c1 c2 : Option Node) (ac : Option Nat) :
    replaceNodeByWid w r (.split sid o p c1 c2 ac) =
      if sid = w then r
      else .split sid o p (replaceSlot w r c1) (replaceSlot w r c2) ac := by
  cases c1 <;> cases c2 <;> rfl

/-- Erase the focus bookkeeping (`_active_child`), which `grab_focus`
rewrites after the structural surgery. -/
def stripAc : Node → Node
  | .term i f => .term i f
  | .split sid o p c1 c2 _ =>
      .split sid o p
        (match c1 with
         | some a => some (stripAc a)
         | none => none)
        (match c2 with
         | some b => some (stripAc b)
         | none => none)
        none

/-- Depth of the tree: 0 at a terminal, one more than the deeper child at
a split. -/
def nodeDepth : Node → Nat
  | .term _ _ => 0
  | .split _ _ _ c1 c2 _ =>
      1 + max (match c1 with
               | some a => nodeDepth a
               | none => 0)
              (match c2 with
               | some b => nodeDepth b
               | none => 0)

/-- The focus-erasure on one child slot. -/
def stripSlot : Option Node → Option Node
  | some a => some (stripAc a)
  | none => none

theorem stripAc_term (i : Nat) (f : List (String × Val)) :
    stripAc (.term i f) = .term i f := rfl

theorem stripAc_split (sid : Nat) (o : Int) (p : Rat)
    (c1 c2 : Option Node) (ac : Option Nat) :
    stripAc (.split sid o p c1 c2 ac) =
      .split sid o p (stripSlot c1) (stripSlot c2) none := by
  cases c1 <;> cases c2 <;> rfl

/-- Depth of one child slot. -/
def depthO : Option Node → Nat
  | some a => nodeDepth a
  | none => 0

theorem nodeDepth_term (i : Nat) (f : List (String × Val)) :
    nodeDepth (.term i f) = 0 := rfl

theorem nodeDepth_split (sid : Nat) (o : Int) (p : Rat)
    (c1 c2 : Option Node) (ac : Option Nat) :
    nodeDepth (.split sid o p c1 c2 ac) = 1 + max (depthO c1) (depthO c2) := by
  cases c1 <;> cases c2 <;> rfl

theorem stripAc_grabFocus (t : Nat) (n : Node) :
    stripAc (grabFocusTerm t n) = stripAc n := by
  induction n using node_ind with
  | hterm i f => rfl
  | hsplit sid o p c1 c2 ac ih1 ih2 =>
      cases c1 with
      | none =>
          cases c2 with
          | none => rfl
          | some b =>
              simp only [grabFocusTerm]
              split_ifs <;> simp_all [stripAc]
      | some a =>
          cases c2 with
          | none =>
              simp only [grabFocusTerm]
              split_ifs <;> simp_all [stripAc]
          | some b =>
              simp only [grabFocusTerm]
              split_ifs <;> simp_all [stripAc]

theorem find_parent_mem (cw : Nat) :
    ∀ n psid, find_parent_split cw n = some psid → psid ∈ nodeWids n := by
  intro n
  induction n using node_ind with
  | hterm i f => intro psid h; simp [find_parent_split] at h
  | hsplit sid o p c1 c2 ac ih1 ih2 =>
      intro psid h
      rw [find_parent_split] at h
      by_cases hc : (optIsWid c1 cw || optIsWid c2 cw) = true
      · rw [if_pos hc] at h
        simp only [Option.some.injEq] at h
        rw [nodeWids_split, ← h]
        simp
      · rw [if_neg hc] at h
        cases hf1 : findParentChild cw c1 with
        | some r =>
            rw [hf1] at h
            simp only [Option.some.injEq] at h
            have hps : psid = r := h.symm
            subst hps
            cases c1 with
            | none => simp [findParentChild] at hf1
            | some x =>
                cases x with
                | term i f => simp [findParentChild] at hf1
                | split s2 o2 p2 e1 e2 b2 =>
                    have := ih1 _ rfl psid
                      (by simpa [findParentChild] using hf1)
                    rw [nodeWids_split, widsO_some]
                    simp only [List.mem_cons, List.mem_append]
                    exact Or.inr (Or.inl this)
        | none =>
            rw [hf1] at h
            cases c2 with
            | none => simp [findParentChild] at h
            | some y =>
                cases y with
                | term i f => simp [findParentChild] at h
                | split s2 o2 p2 e1 e2 b2 =>
                    have := ih2 _ rfl psid
                      (by simpa [findParentChild] using h)
                    rw [nodeWids_split, widsO_some]
                    simp only [List.mem_cons, List.mem_append]
                    exact Or.inr (Or.inr this)

theorem find_parent_none_promote (tid : Nat) :
    ∀ n, find_parent_split tid n = none →
      promote_sibling tid n = .notFound := by
  intro n
  induction n using node_ind with
  | hterm i f => intro _; rw [promote_sibling]
  | hsplit sid o p c1 c2 ac ih1 ih2 =>
      intro h
      rw [find_parent_split] at h
      rw [promote_sibling]
      by_cases hc : (optIsWid c1 tid || optIsWid c2 tid) = true
      · rw [if_pos hc] at h
        exact absurd h (by simp)
      · rw [if_neg hc] at h
        rw [if_neg hc]
        have hchild : ∀ (c : Option Node),
            (∀ x, c = some x → find_parent_split tid x = none →
              promote_sibling tid x = .notFound) →
            findParentChild tid c = none →
            promoteChild tid c = .notFound := by
          intro c hc' hnone
          cases c with
          | none => simp [promoteChild]
          | some x =>
              cases x with
              | term i f => simp [promoteChild]
              | split s2 o2 p2 e1 e2 b2 =>
                  have := hc' _ rfl (by simpa [findParentChild] using hnone)
                  simpa [promoteChild] using this
        cases hf1 : findParentChild tid c1 with
        | some r => rw [hf1] at h; exact absurd h (by simp)
        | none =>
            rw [hf1] at h
            rw [hchild c1 ih1 hf1, hchild c2 ih2 h]

theorem replace_absent (w : Nat) (r : Node) :
    ∀ n, w ∉ nodeWids n → replaceNodeByWid w r n = n := by
  intro n
  induction n using node_ind with
  | hterm i f =>
      intro h
      simp only [nodeWids, List.mem_singleton] at h
      simp [replaceNodeByWid, Ne.symm h]
  | hsplit sid o p c1 c2 ac ih1 ih2 =>
      intro h
      rw [nodeWids_split] at h
      simp only [List.mem_cons, List.mem_append] at h
      push_neg at h
      rw [replaceNodeByWid_split]
      rw [if_neg (Ne.symm h.1)]
      have hc1 : replaceSlot w r c1 = c1 := by
        cases c1 with
        | none => rfl
        | some a =>
            show some (replaceNodeByWid w r a) = some a
            rw [ih1 a rfl]
            intro hmem
            exact h.2.1 (by simpa [widsO] using hmem)
      have hc2 : replaceSlot w r c2 = c2 := by
        cases c2 with
        | none => rfl
        | some b =>
            show some (replaceNodeByWid w r b) = some b
            rw [ih2 b rfl]
            intro hmem
            exact h.2.2 (by simpa [widsO] using hmem)
      rw [hc1, hc2]

/-- Membership of a widget id among a tree's ids makes the id search
succeed. -/
theorem findNode_mem (w : Nat) :
    ∀ n, w ∈ nodeWids n → ∃ m, findNodeByWid w n = some m := by
  intro n
  induction n using node_ind with
  | hterm i f =>
      intro h
      simp only [nodeWids, List.mem_singleton] at h
      exact ⟨.term i f, by simp [findNodeByWid, h]⟩
  | hsplit sid o p c1 c2 ac ih1 ih2 =>
      intro h
      rw [findNodeByWid]
      by_cases hs : sid = w
      · exact ⟨_, by rw [if_pos hs]⟩
      · rw [if_neg hs]
        rw [nodeWids_split] at h
        simp only [List.mem_cons, List.mem_append] at h
        rcases h with h | h | h
        · exact absurd h.symm hs
        · cases c1 with
          | none => simp [widsO] at h
          | some a =>
              rw [widsO_some] at h
              obtain ⟨m, hm⟩ := ih1 a rfl h
              refine ⟨m, ?_⟩
              simp [findNodeChild, hm]
        · cases hf1 : findNodeChild w c1 with
          | some m => exact ⟨m, by simp [hf1]⟩
          | none =>
              cases c2 with
              | none => simp [widsO] at h
              | some b =>
                  rw [widsO_some] at h
                  obtain ⟨m, hm⟩ := ih2 b rfl h
                  refine ⟨m, ?_⟩
                  simp [hf1, findNodeChild, hm]

/-- Under distinct widget ids, the collapse surgery is exactly "replace
the parent split, located by its id, with the terminal's sibling". -/
theorem promote_replace (tid : Nat) :
    ∀ root psid po pp x y pac,
      (nodeWids root).Nodup →
      find_parent_split tid root = some psid →
      findNodeByWid psid root = some (.split psid po pp (some x) (some y) pac) →
      promote_sibling tid root =
        .done (replaceNodeByWid psid (if x.wid = tid then y else x) root)
          (if x.wid = tid then y else x) := by
  intro root
  induction root using node_ind with
  | hterm i f =>
      intro psid po pp x y pac _ hpar _
      simp [find_parent_split] at hpar
  | hsplit sid o p c1 c2 ac ih1 ih2 =>
      intro psid po pp x y pac hnd hpar hfind
      rw [find_parent_split] at hpar
      rw [nodeWids_split] at hnd
      have hnd' := List.nodup_cons.mp hnd
      have hnda := List.nodup_append.mp hnd'.2
      by_cases hc : (optIsWid c1 tid || optIsWid c2 tid) = true
      · rw [if_pos hc] at hpar
        simp only [Option.some.injEq] at hpar
        subst hpar
        rw [findNodeByWid, if_pos rfl] at hfind
        simp only [Option.some.injEq, Node.split.injEq, true_and] at hfind
        obtain ⟨-, -, hx1, hx2, -⟩ := hfind
        subst hx1
        subst hx2
        rw [promote_sibling, if_pos hc]
        rw [replaceNodeByWid_split, if_pos rfl]
        by_cases hxw : x.wid = tid
        · have h1 : optIsWid (some x) tid = true := by simp [optIsWid, hxw]
          simp [h1, hxw]
        · have h1 : optIsWid (some x) tid = false := by simp [optIsWid, hxw]
          simp [h1, hxw]
      · rw [if_neg hc] at hpar
        cases hf1 : findParentChild tid c1 with
        | some r =>
            rw [hf1] at hpar
            simp only [Option.some.injEq] at hpar
            have hps : psid = r := hpar.symm
            subst hps
            cases c1 with
            | none => simp [findParentChild] at hf1
            | some ca =>
                cases ca with
                | term i f => simp [findParentChild] at hf1
                | split s2 o2 p2 e1 e2 b2 =>
                    have hpca : find_parent_split tid (.split s2 o2 p2 e1 e2 b2) =
                        some psid := by
                      simpa [findParentChild] using hf1
                    have hmem : psid ∈ nodeWids (.split s2 o2 p2 e1 e2 b2) :=
                      find_parent_mem tid _ psid hpca
                    have hsid_ne : ¬ (sid = psid) := by
                      intro he
                      apply hnd'.1
                      rw [he]
                      exact List.mem_append_left _ (by simpa [widsO] using hmem)
                    rw [findNodeByWid, if_neg hsid_ne] at hfind
                    obtain ⟨m1, hm1⟩ := findNode_mem psid _ hmem
                    have hfc1 : findNodeChild psid (some (.split s2 o2 p2 e1 e2 b2)) =
                        some m1 := by
                      simpa [findNodeChild] using hm1
                    rw [hfc1] at hfind
                    simp only [Option.some.injEq] at hfind
                    subst hfind
                    have hndca : (nodeWids (.split s2 o2 p2 e1 e2 b2)).Nodup := by
                      simpa [widsO] using hnda.1
                    have hih := ih1 _ rfl psid po pp x y pac hndca hpca hm1
                    have hpc : promoteChild tid (some (.split s2 o2 p2 e1 e2 b2)) =
                        .done (replaceNodeByWid psid (if x.wid = tid then y else x)
                          (.split s2 o2 p2 e1 e2 b2))
                          (if x.wid = tid then y else x) := by
                      simpa [promoteChild] using hih
                    have hrep : replaceNodeByWid psid (if x.wid = tid then y else x)
                        (.split sid o p (some (.split s2 o2 p2 e1 e2 b2)) c2 ac) =
                        .split sid o p
                          (some (replaceNodeByWid psid (if x.wid = tid then y else x)
                            (.split s2 o2 p2 e1 e2 b2))) c2 ac := by
                      rw [replaceNodeByWid_split, if_neg hsid_ne]
                      have h2 : replaceSlot psid (if x.wid = tid then y else x) c2
                          = c2 := by
                        cases c2 with
                        | none => rfl
                        | some cb =>
                            show some (replaceNodeByWid psid
                              (if x.wid = tid then y else x) cb) = some cb
                            rw [replace_absent]
                            intro hmem2
                            exact hnda.2.2 (by simpa [widsO] using hmem)
                              (by simpa [widsO] using hmem2)
                      rw [h2]
                      rfl
                    rw [promote_sibling, if_neg hc]
                    simp only [hpc, hrep]
        | none =>
            cases c2 with
            | none => rw [hf1] at hpar; simp [findParentChild] at hpar
            | some cb =>
                cases cb with
                | term i f => rw [hf1] at hpar; simp [findParentChild] at hpar
                | split s2 o2 p2 e1 e2 b2 =>
                    rw [hf1] at hpar
                    have hpcb : find_parent_split tid (.split s2 o2 p2 e1 e2 b2) =
                        some psid := by
                      simpa [findParentChild] using hpar
                    have hmem : psid ∈ nodeWids (.split s2 o2 p2 e1 e2 b2) :=
                      find_parent_mem tid _ psid hpcb
                    have hsid_ne : ¬ (sid = psid) := by
                      intro he
                      apply hnd'.1
                      rw [he]
                      exact List.mem_append_right _ (by simpa [widsO] using hmem)
                    rw [findNodeByWid, if_neg hsid_ne] at hfind
                    cases hfc1 : findNodeChild psid c1 with
                    | some m1 =>
                        exfalso
                        obtain ⟨xx, hxx, hfxx⟩ := findNodeChild_some hfc1
                        obtain ⟨hsub, -, -, hwid⟩ := findNode_facts psid xx m1 hfxx
                        have hmx : psid ∈ nodeWids xx :=
                          hsub.mem (hwid ▸ wid_mem_nodeWids m1)
                        exact hnda.2.2 (by rw [hxx]; simpa [widsO] using hmx)
                          (by simpa [widsO] using hmem)
                    | none =>
                        rw [hfc1] at hfind
                        have hm1 : findNodeByWid psid (.split s2 o2 p2 e1 e2 b2) =
                            some (.split psid po pp (some x) (some y) pac) := by
                          simpa [findNodeChild] using hfind
                        have hndcb : (nodeWids (.split s2 o2 p2 e1 e2 b2)).Nodup := by
                          simpa [widsO] using hnda.2.1
                        have hih := ih2 _ rfl psid po pp x y pac hndcb hpcb hm1
                        have hpc2 : promoteChild tid (some (.split s2 o2 p2 e1 e2 b2)) =
                            .done (replaceNodeByWid psid (if x.wid = tid then y else x)
                              (.split s2 o2 p2 e1 e2 b2))
                              (if x.wid = tid then y else x) := by
                          simpa [promoteChild] using hih
                        have hpc1 : promoteChild tid c1 = .notFound := by
                          cases c1 with
                          | none => simp [promoteChild]
                          | some cx =>
                              cases cx with
                              | term i f => simp [promoteChild]
                              | split s3 o3 p3 e3 e4 b3 =>
                                  have hn := find_parent_none_promote tid
                                    (.split s3 o3 p3 e3 e4 b3)
                                    (by simpa [findParentChild] using hf1)
                                  simpa [promoteChild] using hn
                        have hrep : replaceNodeByWid psid (if x.wid = tid then y else x)
                            (.split sid o p c1 (some (.split s2 o2 p2 e1 e2 b2)) ac) =
                            .split sid o p c1
                              (some (replaceNodeByWid psid (if x.wid = tid then y else x)
                                (.split s2 o2 p2 e1 e2 b2))) ac := by
                          rw [replaceNodeByWid_split, if_neg hsid_ne]
                          have h1 : replaceSlot psid (if x.wid = tid then y else x) c1
                              = c1 := by
                            cases c1 with
                            | none => rfl
                            | some cx =>
                                show some (replaceNodeByWid psid
                                  (if x.wid = tid then y else x) cx) = some cx
                                rw [replace_absent]
                                intro hmem2
                                exact hnda.2.2 (by simpa [widsO] using hmem2)
                                  (by simpa [widsO] using hmem)
                          rw [h1]
                          rfl
                        rw [promote_sibling, if_neg hc]
                        simp only [hpc1, hpc2, hrep]

/-- The master invariant: every state reachable through the container's
operations — deserialization restricted to well-formed records —
satisfies `Inv`. -/
theorem reachableWF_inv : ∀ s, ReachableWF s → Inv s := by
  intro s h
  induction h with
  | init => exact inv_new
  | deserialize fields hwf => exact inv_deserialize fields hwf
  | step hr hst ih =>
      cases hst with
      | set_terminal f hd hp => exact inv_set_terminal _ f ih hp
      | split tid o hd hp => exact inv_splitOp _ tid o ih hp
      | unsplit r hd hp hop => exact inv_unsplit _ r ih hp hop
      | collapse_terminal tid hd hp => exact inv_collapse_terminal _ tid ih hp
      | close_active hd hp => exact inv_close_active _ ih hp
      | terminal_destroyed tid hd hmem => exact inv_terminal_destroyed _ tid ih
      | collapse_idle hd hp => exact inv_collapse_empty _ ih hp
      | focus tid hd hp hmem => exact inv_focus _ tid ih hp hmem
      | adjust delta hd hp => exact inv_adjust _ delta ih hp


/-! ## The claims

Concrete records and containers the witnesses and counterexamples
evaluate. -/

/-- The persisted record `{"type": "split"}`: a split tag with both child
records missing (`first`/`second` absent). -/
def malformedSplitRec : List (String × Val) := [("type", .vs "split")]

/-- Deserializing `{"type": "split"}` completes and installs a split with
zero children, no active terminal and no collapse task pending. -/
theorem malformed_deser_eq :
    container_deserialize_state malformedSplitRec =
      { content := some (.split 0 0 (1/2) none none none)
        activeTerminal := none, destroyed := false
        collapsePending := false, nextId := 1 } := by
  have h1 : lookupStr malformedSplitRec "type" = some "split" := rfl
  have h2 : deserialize_state malformedSplitRec 0 =
      (some (.split 0 0 (1/2) none none none), 1) := by
    rw [deserialize_state_eq, if_pos h1]
    rfl
  simp [container_deserialize_state, h1, h2, containerActive, active_terminal]

/-- C1 — counterexample.  The claim quantifies over every completed state
of the container's operations, deserialization included, on arbitrary
persisted input.  Deserializing the record `{"type": "split"}` (a split
tag with both children missing) completes with the childless split
`Split(0.5, ∅, ∅)` as the root and no collapse pending: a reachable
completed state in which a split with zero children is observable. -/
theorem c1_split_children_counterexample :
    ReachableFull (container_deserialize_state malformedSplitRec) ∧
    (container_deserialize_state malformedSplitRec).collapsePending = false ∧
    (container_deserialize_state malformedSplitRec).content =
      some (.split 0 0 (1/2) none none none) ∧
    fullOpt (container_deserialize_state malformedSplitRec).content = false := by
  refine ⟨ReachableFull.deserialize _, ?_, ?_, ?_⟩ <;>
    rw [malformed_deser_eq] <;> rfl

/-- C1 (amended).  With deserialization restricted to well-formed records
(`containerRecWF`, the shape `serialize_state` itself produces), every
reachable completed state is fully populated: whenever no collapse idle
task is pending, every split node of the content has both children
present.  (As frozen, the claim fails only on the deserialization of
corrupt split records, `c1_split_children_counterexample`.) -/
theorem c1_no_partial_splits (s : Container)
    (h : ReachableWF s) (hp : s.collapsePending = false) :
    fullOpt s.content = true :=
  (reachableWF_inv s h).1 hp

/-- C1 witness: a container built by `set_terminal` then `split` — a
two-terminal split tree — is fully populated. -/
theorem c1_witness :
    fullOpt (splitOp (set_terminal newContainer []) 0 0).content = true :=
  c1_no_partial_splits _
    (ReachableWF.step
      (ReachableWF.step ReachableWF.init
        (Step.set_terminal newContainer [] rfl rfl))
      (Step.split (set_terminal newContainer []) 0 0 rfl rfl))
    rfl

/-- C2 — counterexample.  On the reachable completed state produced by
deserializing `{"type": "split"}` (no collapse pending), the content is
present while the active terminal is absent: the claimed "absent iff
absent" equivalence fails (and so does membership in `all_terminals`,
which is empty for the childless split). -/
theorem c2_active_terminal_counterexample :
    ReachableFull (container_deserialize_state malformedSplitRec) ∧
    (container_deserialize_state malformedSplitRec).collapsePending = false ∧
    (container_deserialize_state malformedSplitRec).content ≠ none ∧
    (container_deserialize_state malformedSplitRec).activeTerminal = none := by
  refine ⟨ReachableFull.deserialize _, ?_, ?_, ?_⟩ <;>
    rw [malformed_deser_eq] <;> simp

/-- C2 (amended).  With deserialization restricted to well-formed records,
every reachable state has: the active terminal absent exactly when the
content is absent, and — in completed states, i.e. whenever no collapse
idle is pending — the active terminal among `get_all_terminals` of the
content.  (As frozen, the claim fails on the deserialization of corrupt
split records, `c2_active_terminal_counterexample`.) -/
theorem c2_active_terminal_consistent (s : Container) (h : ReachableWF s) :
    (s.activeTerminal = none ↔ s.content = none) ∧
    (s.collapsePending = false →
      ∀ a n, s.activeTerminal = some a → s.content = some n →
        a ∈ get_all_terminals n) :=
  ⟨(reachableWF_inv s h).2.1, (reachableWF_inv s h).2.2.1⟩

/-- C2 witness: on the single-terminal container built by `set_terminal`,
both parts of the consistency property hold. -/
theorem c2_witness :
    ((set_terminal newContainer []).activeTerminal = none ↔
      (set_terminal newContainer []).content = none) ∧
    ((set_terminal newContainer []).collapsePending = false →
      ∀ a n, (set_terminal newContainer []).activeTerminal = some a →
        (set_terminal newContainer []).content = some n →
        a ∈ get_all_terminals n) :=
  c2_active_terminal_consistent _
    (ReachableWF.step ReachableWF.init
      (Step.set_terminal newContainer [] rfl rfl))

/-- C3.  Round trip through persistence: for a container holding any
fully populated tree (a single terminal, a two-way split, a split of
splits of any nesting — every claimed family), deserializing the record
produced by `serialize_state` reconstructs a tree of the same shape:
identical orientations, divider positions within the 1e-3 tolerance
(here exactly equal), and the same terminal records at the same leaf
positions (`SameShape`). -/
theorem c3_serialize_roundtrip (c : Container) (n : Node)
    (hc : c.content = some n) (hfull : fullNode n = true) :
    ∃ r n', container_serialize_state c = some r ∧
      (container_deserialize_state r).content = some n' ∧
      SameShape n n' := by
  cases n with
  | term i f =>
      refine ⟨serialize_terminal_rec f, .term 0 (serialize_terminal_rec f),
        ?_, ?_, ?_⟩
      · simp [container_serialize_state, hc]
      · have hty : lookupStr (serialize_terminal_rec f) "type" =
            some "terminal" := by
          simp [serialize_terminal_rec, insertKV, lookupStr, lookupVal]
        simp [container_deserialize_state, hty, set_terminal, newContainer]
      · exact (SameShape_term _ _ _ _).mpr
          (insertKV_idem "type" (.vs "terminal") f).symm
  | split s0 o0 p0 d1 d2 a0 =>
      obtain ⟨a, b, rfl, rfl⟩ : ∃ a b, d1 = some a ∧ d2 = some b := by
        rw [fullNode_split, Bool.and_eq_true] at hfull
        cases d1 with
        | none => simp [fullO] at hfull
        | some a =>
            cases d2 with
            | none => simp [fullO] at hfull
            | some b => exact ⟨a, b, rfl, rfl⟩
      obtain ⟨n', hn', hshape⟩ :=
        serialize_node_roundtrip (.split s0 o0 p0 (some a) (some b) a0) hfull 0
      have hty : lookupStr
          (serialize_node (.split s0 o0 p0 (some a) (some b) a0)) "type" =
          some "split" := by
        rw [serialize_node_full]
        simp [lookupStr, lookupVal]
      have hnode : deserialize_node
          (serialize_node (.split s0 o0 p0 (some a) (some b) a0)) 0 =
          deserialize_state
            (serialize_node (.split s0 o0 p0 (some a) (some b) a0)) 0 := by
        simp [deserialize_node, hty]
      refine ⟨serialize_node (.split s0 o0 p0 (some a) (some b) a0), n',
        ?_, ?_, hshape⟩
      · simp [container_serialize_state, hc]
      · rcases hds : deserialize_state
            (serialize_node (.split s0 o0 p0 (some a) (some b) a0)) 0 with
          ⟨os, k2⟩
        rw [hnode, hds] at hn'
        have hos : os = some n' := hn'
        simp [container_deserialize_state, hty, hds, hos]

/-- The witness tree for C3: a split of splits three deep over terminals
with non-trivial records, mixed orientations and divider positions. -/
def treeC3 : Node :=
  .split 7 0 (1/2)
    (some (.split 8 1 (1/4)
      (some (.split 9 0 (3/4)
        (some (.term 1 [("command", .vs "bash")]))
        (some (.term 2 [])) none))
      (some (.term 3 [])) none))
    (some (.term 4 [("command", .vs "htop")])) none

/-- The witness container for C3. -/
def contC3 : Container :=
  { content := some treeC3, activeTerminal := some 1
    destroyed := false, collapsePending := false, nextId := 10 }

/-- C3 witness: the round trip at the three-deep nested tree. -/
theorem c3_witness :
    ∃ r n', container_serialize_state contC3 = some r ∧
      (container_deserialize_state r).content = some n' ∧
      SameShape treeC3 n' :=
  c3_serialize_roundtrip contC3 treeC3 rfl (by rfl)

/-- C4.  Splitting a container whose content is the single terminal `T1`
(`split(T1, orientation)`): the root becomes a split with the requested
orientation and divider position 0.5, first child `T1` (the same widget,
record intact) and second child a fresh terminal `T2`; `is_split` becomes
true, `T2` is the active terminal, and no existing terminal is destroyed
— the terminal list afterwards is exactly `[T1, T2]` (the operation has
no destroy effect in the code; the list equality shows `T1` survives). -/
theorem c4_split_single_terminal (c : Container) (i : Nat)
    (f : List (String × Val)) (o : Int)
    (hc : c.content = some (.term i f)) (hfresh : i < c.nextId) :
    (splitOp c i o).content =
      some (.split (c.nextId + 1) o (1/2) (some (.term i f))
        (some (.term c.nextId [])) (some c.nextId)) ∧
    is_split (splitOp c i o) = true ∧
    (splitOp c i o).activeTerminal = some c.nextId ∧
    allTerminalsC (splitOp c i o) = [i, c.nextId] := by
  have hne : i ≠ c.nextId := Nat.ne_of_lt hfresh
  have htree : grabFocusTerm c.nextId
      (.split (c.nextId + 1) o (1/2) (some (.term i f))
        (some (.term c.nextId [])) none) =
      .split (c.nextId + 1) o (1/2) (some (.term i f))
        (some (.term c.nextId [])) (some c.nextId) := by
    simp [grabFocusTerm, contains_terminal, hne, Node.wid]
  have hact : containerActive (some (.split (c.nextId + 1) o (1/2)
      (some (.term i f)) (some (.term c.nextId [])) (some c.nextId))) =
      some c.nextId := by
    simp [containerActive, active_terminal, Node.wid, hne]
  have hop : splitOp c i o =
      { c with
        content := some (.split (c.nextId + 1) o (1/2) (some (.term i f))
          (some (.term c.nextId [])) (some c.nextId))
        activeTerminal := some c.nextId
        nextId := c.nextId + 2 } := by
    have h12 : (1 : Rat) / 2 = 2⁻¹ := one_div 2
    rw [h12] at htree hact
    simp [splitOp, hc, htree, hact]
  refine ⟨?_, ?_, ?_, ?_⟩
  · rw [hop]
  · rw [is_split, hop]
  · rw [hop]
  · simp [allTerminalsC, hop, get_all_terminals]

/-- C4 witness: scenario A on the container `set_terminal` builds — a
single terminal with id 0 — split with horizontal orientation 0. -/
theorem c4_witness :
    (splitOp (set_terminal newContainer []) 0 0).content =
      some (.split 2 0 (1/2) (some (.term 0 [])) (some (.term 1 []))
        (some 1)) ∧
    is_split (splitOp (set_terminal newContainer []) 0 0) = true ∧
    (splitOp (set_terminal newContainer []) 0 0).activeTerminal = some 1 ∧
    allTerminalsC (splitOp (set_terminal newContainer []) 0 0) = [0, 1] :=
  c4_split_single_terminal (set_terminal newContainer []) 0 [] 0 rfl
    (by decide)

/-- C5.  `unsplit()`: when the container is not split it is a no-op
(returns the unchanged state, destroying nothing); when it is split with
active terminal `a` — a terminal of the tree — the whole tree is replaced
by that terminal alone as the root, it stays active, and every other
terminal of the tree (all of them except `a`) is destroyed. -/
theorem c5_unsplit (c : Container) :
    (is_split c = false → unsplitOp c = some (c, [])) ∧
    (∀ s0 o0 p0 d1 d2 a0 a g,
      c.content = some (.split s0 o0 p0 d1 d2 a0) →
      c.activeTerminal = some a →
      findNodeByWid a (.split s0 o0 p0 d1 d2 a0) = some (.term a g) →
      unsplitOp c = some
        ({ c with content := some (.term a g), activeTerminal := some a },
         (get_all_terminals (.split s0 o0 p0 d1 d2 a0)).filter
           (fun t => t ≠ a))) := by
  constructor
  · intro hs
    rcases hcm : c.content with _ | n
    · simp [unsplitOp, hcm]
    · cases n with
      | term i f => simp [unsplitOp, hcm]
      | split s0 o0 p0 d1 d2 a0 => simp [is_split, hcm] at hs
  · intro s0 o0 p0 d1 d2 a0 a g hc hact hfind
    have htree : grabFocusNode (.term a g) = .term a g := rfl
    simp [unsplitOp, hc, hact, hfind, htree, containerActive]

/-- The witness tree for C5: scenario D, three terminals with `T3`
active. -/
def treeC5 : Node :=
  .split 20 0 (1/2)
    (some (.split 21 1 (1/2) (some (.term 1 [])) (some (.term 2 [])) none))
    (some (.term 3 [])) (some 3)

/-- The witness container for C5. -/
def contC5 : Container :=
  { content := some treeC5, activeTerminal := some 3
    destroyed := false, collapsePending := false, nextId := 22 }

/-- C5 witness: `unsplit` on scenario D destroys `T1` and `T2` and leaves
`T3` alone as the root, still active. -/
theorem c5_witness :
    unsplitOp contC5 = some
      ({ content := some (.term 3 []), activeTerminal := some 3
         destroyed := false, collapsePending := false, nextId := 22 },
       [1, 2]) :=
  (c5_unsplit contC5).2 20 0 (1/2)
    (some (.split 21 1 (1/2) (some (.term 1 [])) (some (.term 2 [])) none))
    (some (.term 3 [])) (some 3) 3 [] rfl rfl
    (by simp [findNodeByWid, findNodeChild])

/-- C6.  `collapse_terminal(terminal)`: a no-op when the container is not
split; and when the terminal (a terminal widget, located anywhere in the
tree) has a parent split, the resulting content is — up to the focus
bookkeeping `grab_focus` rewrites (`stripAc`) — exactly the old tree with
that parent split replaced, root or nested, by the terminal's sibling
(`replaceNodeByWid`); the replaced subtree is one level deeper than its
replacement (`nodeDepth parent = nodeDepth sibling + 1`). -/
theorem c6_collapse_terminal_replaces_parent (c : Container) (tid : Nat) :
    (is_split c = false → collapse_terminal c tid = c) ∧
    (∀ root psid po pp x y pac ft,
      c.content = some root →
      (nodeWids root).Nodup →
      find_parent_split tid root = some psid →
      findNodeByWid psid root = some (.split psid po pp (some x) (some y) pac) →
      (if x.wid = tid then x else y) = .term tid ft →
      (∃ tree, (collapse_terminal c tid).content = some tree ∧
        stripAc tree =
          stripAc (replaceNodeByWid psid (if x.wid = tid then y else x) root)) ∧
      nodeDepth (.split psid po pp (some x) (some y) pac) =
        nodeDepth (if x.wid = tid then y else x) + 1) := by
  constructor
  · intro hs
    rcases hcm : c.content with _ | n
    · simp [collapse_terminal, hcm]
    · cases n with
      | term i f => simp [collapse_terminal, hcm]
      | split s0 o0 p0 d1 d2 a0 => simp [is_split, hcm] at hs
  · intro root psid po pp x y pac ft hc hnd hpar hfind hleaf
    have hprom := promote_replace tid root psid po pp x y pac hnd hpar hfind
    constructor
    · cases root with
      | term i f => simp [find_parent_split] at hpar
      | split s0 o0 p0 d1 d2 a0 =>
          have hcol : (collapse_terminal c tid).content =
              some (match dfsFirstTerm (if x.wid = tid then y else x) with
                    | some t => grabFocusTerm t (replaceNodeByWid psid
                        (if x.wid = tid then y else x)
                        (.split s0 o0 p0 d1 d2 a0))
                    | none => replaceNodeByWid psid
                        (if x.wid = tid then y else x)
                        (.split s0 o0 p0 d1 d2 a0)) := by
            simp only [collapse_terminal, hc, hprom]
          refine ⟨_, hcol, ?_⟩
          cases hdfs : dfsFirstTerm (if x.wid = tid then y else x) with
          | some t => simp only [hdfs]; exact stripAc_grabFocus t _
          | none => simp only [hdfs]
    · by_cases hxw : x.wid = tid
      · rw [if_pos hxw] at hleaf
        rw [if_pos hxw, nodeDepth_split, hleaf]
        simp [depthO, nodeDepth]
        omega
      · rw [if_neg hxw] at hleaf
        rw [if_neg hxw, nodeDepth_split, hleaf]
        simp [depthO, nodeDepth]
        omega

/-- The witness tree for C6: scenario C,
`Split(horizontal, Split(vertical, T1, T2), T3)`. -/
def treeC6 : Node :=
  .split 11 0 (1/2)
    (some (.split 10 1 (1/2) (some (.term 1 [])) (some (.term 2 [])) none))
    (some (.term 3 [])) none

/-- The witness container for C6. -/
def contC6 : Container :=
  { content := some treeC6, activeTerminal := some 1
    destroyed := false, collapsePending := false, nextId := 12 }

/-- C6 witness: scenario C — collapsing `T1` replaces the nested vertical
split by `T2`, so the root becomes `Split(horizontal, T2, T3)`, one level
shallower at the replaced position. -/
theorem c6_witness :
    (∃ tree, (collapse_terminal contC6 1).content = some tree ∧
      stripAc tree = stripAc (replaceNodeByWid 10 (.term 2 []) treeC6)) ∧
    nodeDepth (.split 10 1 (1/2) (some (.term 1 [])) (some (.term 2 []))
      none) = nodeDepth (.term 2 []) + 1 :=
  (c6_collapse_terminal_replaces_parent contC6 1).2 treeC6 10 1 (1/2)
    (.term 1 []) (.term 2 []) none [] rfl (by decide)
    (by simp [treeC6, find_parent_split, findParentChild, optIsWid, Node.wid])
    (by simp [treeC6, findNodeByWid, findNodeChild])
    (by rfl)

/-- C7.  On a fully populated tree — every reachable split has both
children — the empty-split collapse routine `_collapse_split_recursive`
returns the very same root, unchanged (ids, positions and focus fields
included); and in general a second run on any of the routine's results
returns it unchanged: the routine is idempotent. -/
theorem c7_collapse_idempotent (n : Node) :
    (fullNode n = true → collapse_split_recursive n = some n) ∧
    (∀ u, collapse_split_recursive n = some u →
      collapse_split_recursive u = some u) :=
  ⟨fun h => collapse_id n h,
   fun u hu => collapse_id u (collapse_full n u hu)⟩

/-- The witness tree for C7: a fully populated nested split. -/
def treeC7 : Node :=
  .split 5 0 (1/2)
    (some (.split 6 1 (1/3) (some (.term 1 [])) (some (.term 2 [])) none))
    (some (.term 3 [])) (some 6)

/-- C7 witness: the collapse routine returns the witness tree itself. -/
theorem c7_witness : collapse_split_recursive treeC7 = some treeC7 :=
  (c7_collapse_idempotent treeC7).1 (by rfl)

/-- C8.  A persisted node record whose type tag is missing or neither
`"terminal"` nor `"split"` deserializes to nothing — `(none, k)`, the
counter untouched, no failure — while a record tagged `"split"` always
deserializes to a split node, its corrupt children merely becoming absent:
a corrupted branch never fails the restore of the tree containing it
(every branch of the deserializer returns; none raises). -/
theorem c8_malformed_node_degrades (fields : List (String × Val)) (k : Nat) :
    (lookupStr fields "type" ≠ some "terminal" →
      lookupStr fields "type" ≠ some "split" →
      deserialize_node fields k = (none, k)) ∧
    (lookupStr fields "type" = some "split" →
      ∃ n k', deserialize_state fields k = (some n, k')) := by
  constructor
  · intro h1 h2
    cases hty : lookupStr fields "type" with
    | none => simp [deserialize_node, hty]
    | some t =>
        have ht1 : ¬(t = "terminal") := by rintro rfl; exact h1 hty
        have ht2 : ¬(t = "split") := by rintro rfl; exact h2 hty
        simp [deserialize_node, hty, ht1, ht2]
  · intro hty
    rw [deserialize_state_eq, if_pos hty]
    exact ⟨_, _, rfl⟩

/-- An unknown legacy record. -/
def corruptRec : List (String × Val) := [("type", .vs "pane"), ("cols", .vi 80)]

/-- A split record whose first child record is corrupt and whose second is
a well-formed terminal. -/
def splitBadChildRec : List (String × Val) :=
  [("type", .vs "split"), ("orientation", .vi 1),
   ("first", .vdict [("type", .vs "pane")]),
   ("second", .vdict [("type", .vs "terminal")])]

/-- C8 witness: the unknown record deserializes to nothing with the
counter untouched, and the split record containing it still deserializes
to a split. -/
theorem c8_witness :
    deserialize_node corruptRec 7 = (none, 7) ∧
    ∃ n k', deserialize_state splitBadChildRec 0 = (some n, k') :=
  ⟨(c8_malformed_node_degrades corruptRec 7).1
      (by simp [corruptRec, lookupStr, lookupVal])
      (by simp [corruptRec, lookupStr, lookupVal]),
   (c8_malformed_node_degrades splitBadChildRec 0).2
      (by simp [splitBadChildRec, lookupStr, lookupVal])⟩

/-- C9.  `split(terminal, orientation)` on a split tree none of whose
split nodes directly parents the given terminal is silently declined:
`splitOp` is a total function (the code path raises no exception — the
parent search returning null leads to an early `return`), and the
container's tree and active terminal are left unchanged. -/
theorem c9_split_declined (c : Container) (tid : Nat) (o : Int)
    (s0 : Nat) (o0 : Int) (p0 : Rat) (d1 d2 : Option Node) (a0 : Option Nat)
    (hc : c.content = some (.split s0 o0 p0 d1 d2 a0))
    (hnp : find_parent_split tid (.split s0 o0 p0 d1 d2 a0) = none) :
    (splitOp c tid o).content = c.content ∧
    (splitOp c tid o).activeTerminal = c.activeTerminal := by
  have hg : graft_split tid c.nextId (c.nextId + 1) o
      (.split s0 o0 p0 d1 d2 a0) = none :=
    (graft_none_iff tid c.nextId (c.nextId + 1) o _).mpr hnp
  simp [splitOp, hc, hg]

/-- The witness tree for C9: a two-terminal split; terminal 99 is not in
the tree, so no split parents it. -/
def treeC9 : Node :=
  .split 30 0 (1/2) (some (.term 1 [])) (some (.term 2 [])) none

/-- The witness container for C9. -/
def contC9 : Container :=
  { content := some treeC9, activeTerminal := some 1
    destroyed := false, collapsePending := false, nextId := 31 }

/-- C9 witness: requesting a split of the absent terminal 99 leaves the
tree and the active terminal unchanged. -/
theorem c9_witness :
    (splitOp contC9 99 0).content = contC9.content ∧
    (splitOp contC9 99 0).activeTerminal = contC9.activeTerminal :=
  c9_split_declined contC9 99 0 30 0 (1/2) (some (.term 1 []))
    (some (.term 2 [])) none rfl
    (by simp [find_parent_split, findParentChild, optIsWid, Node.wid])

/-- C10.  `close_active_terminal()` on a container that is not split
(content absent or a single terminal) is a no-op: the state is unchanged
and no terminal is handed to `close()` — the last terminal of a tab
cannot be closed through this operation. -/
theorem c10_close_active_noop (c : Container) (h : is_split c = false) :
    close_active_terminal c = (c, []) := by
  simp [close_active_terminal, h]

/-- C10 witness: on a single-terminal container, `close_active_terminal`
changes nothing and closes nothing. -/
theorem c10_witness :
    close_active_terminal (set_terminal newContainer []) =
      (set_terminal newContainer [], []) :=
  c10_close_active_noop (set_terminal newContainer []) rfl

end DDTerm
